import Mathlib

/-
  Verification development for a todo-list application with task
  dependencies, due dates and a computed critical path.

  The embedding models, faithfully to the TypeScript source:
    - the persisted store of todos (a list of rows; the ORM resolves the
      dependency relation of a row to the rows whose ids are listed),
    - the cycle checker (hasPath / hasCircularDependency) as a
      fuel-indexed depth-first search threading a shared visited set,
    - the client-side analyzer calculateCriticalPath (Kahn-style
      longest-path leveling over insertion-ordered maps),
    - calculateEarliestStartDates,
    - the POST and PATCH route handlers as state transitions on the store.

  Calendar dates are modelled as integers (a day count); the day after a
  date d is d + 1.  JavaScript Map objects are modelled as association
  lists whose set operation overwrites in place and appends fresh keys,
  which reproduces Map insertion-order iteration.
-/

/-- Row of the todo table: id, title, optional due date, and the ids of the
rows it depends on (the many-to-many dependency relation). -/
structure Todo where
  id : Nat
  title : String
  dueDate : Option Int
  depIds : List Nat
deriving Repr, DecidableEq

/-- Dependency object as serialized to the client: a todo row without its
own resolved dependency list. -/
structure DepTodo where
  id : Nat
  dueDate : Option Int
deriving Repr, DecidableEq

/-- Client-side task shape: a todo together with its resolved direct
dependencies (the TodoWithDependencies type of the page component). -/
structure TodoWithDependencies where
  id : Nat
  dueDate : Option Int
  dependencies : List DepTodo
deriving Repr, DecidableEq

/-- Lookup in a JavaScript-Map-like association list. -/
def mapGet (k : Nat) (m : List (Nat × α)) : Option α :=
  (m.find? (fun p => p.1 == k)).map (fun p => p.2)

/-- Update in a JavaScript-Map-like association list: an existing key keeps
its position, a fresh key is appended, matching Map insertion order. -/
def mapSet (k : Nat) (v : α) : List (Nat × α) → List (Nat × α)
  | [] => [(k, v)]
  | p :: rest => if p.1 == k then (k, v) :: rest else p :: mapSet k v rest

/-- Store lookup, as the findUnique call of the ORM (first row whose id
matches). -/
def findTodo (store : List Todo) (i : Nat) : Option Todo :=
  store.find? (fun t => t.id == i)

/-- Ids of the direct dependencies of a row as resolved by the ORM: the
dependency relation only ever references existing rows, so resolution
keeps exactly the listed ids that are present in the store. -/
def resolvedDeps (store : List Todo) (t : Todo) : List Nat :=
  t.depIds.filter (fun d => (findTodo store d).isSome)

/-- Loop of hasPath over the dependencies of the current row: it runs the
given search from each dependency in turn, threading the shared visited
set, and returns at the first successful branch. -/
def hasPathLoop (search : Nat → Nat → List Nat → Bool × List Nat) :
    List Nat → Nat → List Nat → Bool × List Nat
  | [], _, visited => (false, visited)
  | d :: ds, toId, visited =>
    match search d toId visited with
    | (true, vis) => (true, vis)
    | (false, vis) => hasPathLoop search ds toId vis

/-- Depth-first search of hasPath, indexed by fuel.  The JavaScript
original recurses without fuel; the visited set it threads through all
recursive calls bounds the recursion depth by the number of rows, so any
fuel above that bound computes the value of the original (proved below).
Out of fuel the search gives up with false. -/
def hasPathFuel (store : List Todo) : Nat → Nat → Nat → List Nat → Bool × List Nat
  | 0, _, _, visited => (false, visited)
  | fuel + 1, fromId, toId, visited =>
    if fromId == toId then (true, visited)
    else if visited.contains fromId then (false, visited)
    else
      match findTodo store fromId with
      | none => (false, fromId :: visited)
      | some todo =>
        hasPathLoop (hasPathFuel store fuel) (resolvedDeps store todo) toId (fromId :: visited)

/-- Reachability query of the cycle checker: is toId reachable from fromId
along stored dependency edges.  The fuel store.length + 1 strictly exceeds
the depth the visited set allows, so this equals the unbounded original. -/
def hasPath (store : List Todo) (fromId toId : Nat) : Bool :=
  (hasPathFuel store (store.length + 1) fromId toId []).1

/-- Cycle checker: adding the proposed dependency edges todoId -> d closes
a cycle exactly when todoId is reachable from some proposed d. -/
def hasCircularDependency (store : List Todo) (todoId : Nat)
    (dependencyIds : List Nat) : Bool :=
  dependencyIds.any (fun depId => hasPath store depId todoId)

/-- Dependency edge of the stored graph: u is a resolved direct dependency
of the row with id v. -/
def EdgeS (store : List Todo) (u v : Nat) : Prop :=
  ∃ t, findTodo store v = some t ∧ u ∈ resolvedDeps store t

instance (store : List Todo) (u v : Nat) : Decidable (EdgeS store u v) := by
  unfold EdgeS
  exact inferInstance

/-- Reachability along stored dependency edges, following edges from a task
to its (transitive) dependencies: ReachS store a b holds when b is
reachable from a. -/
def ReachS (store : List Todo) (a b : Nat) : Prop :=
  Relation.ReflTransGen (fun x y => EdgeS store y x) a b

/-- Resolved direct dependency ids of the row with the given id, empty when
no row matches. -/
def depsOfId (store : List Todo) (v : Nat) : List Nat :=
  match findTodo store v with
  | none => []
  | some t => resolvedDeps store t

/-- Distinct row ids of the store. -/
def storeIds (store : List Todo) : Finset Nat :=
  (store.map Todo.id).toFinset

/-- Number of store ids that a search starting with the given visited set
may still expand; it bounds the remaining recursion depth. -/
def freshCount (store : List Todo) (visited : List Nat) : Nat :=
  (storeIds store \ visited.toFinset).card

/-- Result record of calculateCriticalPath.  nodeLevels is the levels map
of the analyzer (the JavaScript source converts it to a plain object with
Object.fromEntries, which preserves lookup semantics). -/
structure CriticalPathResult where
  criticalPath : List Nat
  pathLength : Int
  nodeLevels : List (Nat × Int)
deriving Repr, DecidableEq

/-- Mutable state of the topological-sort loop of calculateCriticalPath. -/
structure LoopState where
  queue : List Nat
  levels : List (Nat × Int)
  parent : List (Nat × Option Nat)
  inDegree : List (Nat × Int)
deriving Repr, DecidableEq

/-- Initialization pass of calculateCriticalPath: one forEach over the
tasks sets dependents[id] to an empty list and inDegree[id] to 0. -/
def initAdj (todos : List TodoWithDependencies) :
    List (Nat × List Nat) × List (Nat × Int) :=
  todos.foldl (fun acc todo => (mapSet todo.id [] acc.1, mapSet todo.id 0 acc.2)) ([], [])

/-- Processing of a single dependency entry while building the graph: when
the dependency id is a known task, push the dependent and bump its
in-degree; otherwise the edge is ignored. -/
def buildStep (acc : List (Nat × List Nat) × List (Nat × Int))
    (todoId depId : Nat) : List (Nat × List Nat) × List (Nat × Int) :=
  if (mapGet depId acc.1).isSome then
    (mapSet depId ((mapGet depId acc.1).getD [] ++ [todoId]) acc.1,
     mapSet todoId ((mapGet todoId acc.2).getD 0 + 1) acc.2)
  else acc

/-- Graph-building pass of calculateCriticalPath: a nested forEach over
every task and each of its dependencies. -/
def buildAdj (todos : List TodoWithDependencies)
    (acc : List (Nat × List Nat) × List (Nat × Int)) :
    List (Nat × List Nat) × List (Nat × Int) :=
  todos.foldl
    (fun acc todo => todo.dependencies.foldl (fun acc dep => buildStep acc todo.id dep.id) acc)
    acc

/-- Seeding pass: every task of in-degree 0 is enqueued with level 0 and a
null predecessor, iterating the in-degree map in insertion order. -/
def seedQueue (inDegree : List (Nat × Int)) :
    List Nat × List (Nat × Int) × List (Nat × Option Nat) :=
  inDegree.foldl
    (fun acc kv =>
      if kv.2 = 0 then (acc.1 ++ [kv.1], mapSet kv.1 0 acc.2.1, mapSet kv.1 none acc.2.2)
      else acc)
    ([], [], [])

/-- Level read of the JavaScript expression levels.get(dependent) || -1: a
missing entry and a recorded level 0 (which is falsy) both yield -1. -/
def jsLevel (o : Option Int) : Int :=
  match o with
  | none => -1
  | some l => if l = 0 then -1 else l

/-- Relaxation of one dependent of the current task.  The in-degree is
read with a non-null assertion, modelled with a default of 0. -/
def relaxOne (current : Nat) (currentLevel : Int) (s : LoopState)
    (dependent : Nat) : LoopState :=
  let newLevel := currentLevel + 1
  let existingLevel := jsLevel (mapGet dependent s.levels)
  let s1 :=
    if newLevel > existingLevel then
      { s with levels := mapSet dependent newLevel s.levels,
               parent := mapSet dependent (some current) s.parent }
    else s
  let deg := (mapGet dependent s1.inDegree).getD 0 - 1
  let s2 := { s1 with inDegree := mapSet dependent deg s1.inDegree }
  if deg = 0 then { s2 with queue := s2.queue ++ [dependent] } else s2

/-- Main while loop of calculateCriticalPath, indexed by fuel.  Each
iteration shifts the queue head, reads its level with
levels.get(current) || 0, and relaxes each of its dependents in order.
Every task is enqueued at most once, so any fuel above the number of
tasks runs the loop to an empty queue (proved below). -/
def runLoop (dependents : List (Nat × List Nat)) : Nat → LoopState → LoopState
  | 0, s => s
  | fuel + 1, s =>
    match s.queue with
    | [] => s
    | current :: rest =>
      let currentLevel := (mapGet current s.levels).getD 0
      let ds := (mapGet current dependents).getD []
      runLoop dependents fuel (ds.foldl (relaxOne current currentLevel) { s with queue := rest })

/-- Main loop together with the list of tasks dequeued so far, in dequeue
order.  The extra component is never read by the computation; projecting
it away yields runLoop (proved below). -/
def runLoopTrace (dependents : List (Nat × List Nat)) :
    Nat → LoopState → List Nat → LoopState × List Nat
  | 0, s, p => (s, p)
  | fuel + 1, s, p =>
    match s.queue with
    | [] => (s, p)
    | current :: rest =>
      let currentLevel := (mapGet current s.levels).getD 0
      let ds := (mapGet current dependents).getD []
      runLoopTrace dependents fuel
        (ds.foldl (relaxOne current currentLevel) { s with queue := rest }) (p ++ [current])

/-- Scan of the final levels map for the maximum level and its first
carrier, with a strict comparison starting from maxLevel 0 and a null end
task. -/
def findMax (levels : List (Nat × Int)) : Int × Option Nat :=
  levels.foldl (fun acc kv => if kv.2 > acc.1 then (kv.2, some kv.1) else acc) (0, none)

/-- Reconstruction of the critical path by walking predecessor links
backward from the end task, prepending each visited task.  The fuel bounds
the walk; parent links of reachable states always terminate at a root
within that bound (proved below), and a missing parent entry is modelled
as the null link that stops the walk. -/
def buildPath (parent : List (Nat × Option Nat)) : Nat → Option Nat → List Nat
  | 0, _ => []
  | _ + 1, none => []
  | fuel + 1, some v => buildPath parent fuel ((mapGet v parent).getD none) ++ [v]

/-- Critical path analyzer of the page component. -/
def calculateCriticalPath (todos : List TodoWithDependencies) : CriticalPathResult :=
  if todos.length = 0 then { criticalPath := [], pathLength := 0, nodeLevels := [] }
  else
    let adj := buildAdj todos (initAdj todos)
    let seeded := seedQueue adj.2
    let s0 : LoopState :=
      { queue := seeded.1, levels := seeded.2.1, parent := seeded.2.2, inDegree := adj.2 }
    let s := runLoop adj.1 (todos.length + 1) s0
    let m := findMax s.levels
    { criticalPath := buildPath s.parent (todos.length + 1) m.2,
      pathLength := m.1 + 1,
      nodeLevels := s.levels }

/-- Analyzer pipeline instrumented with the dequeue trace, for stating
which tasks are ever dequeued by calculateCriticalPath. -/
def criticalPathTrace (todos : List TodoWithDependencies) : LoopState × List Nat :=
  let adj := buildAdj todos (initAdj todos)
  let seeded := seedQueue adj.2
  runLoopTrace adj.1 (todos.length + 1)
    { queue := seeded.1, levels := seeded.2.1, parent := seeded.2.2, inDegree := adj.2 } []

/-- Maximum of a nonempty list of integers, as Math.max over a spread
array. -/
def listMaxI (x : Int) (xs : List Int) : Int :=
  xs.foldl max x

/-- Earliest-start inference of the page component: for each task, the due
dates carried by its direct dependencies; none when there are none, else
the day after their maximum. -/
def calculateEarliestStartDates (todos : List TodoWithDependencies) :
    List (Nat × Option Int) :=
  todos.foldl
    (fun startDates todo =>
      match todo.dependencies.filterMap (fun dep => dep.dueDate) with
      | [] => mapSet todo.id none startDates
      | d :: ds => mapSet todo.id (some (listMaxI d ds + 1)) startDates)
    []

/-- Task ids of the analyzer input, in input order. -/
def idsOf (todos : List TodoWithDependencies) : List Nat :=
  todos.map (fun t => t.id)

/-- First task of the input carrying the given id. -/
def taskOf (todos : List TodoWithDependencies) (v : Nat) : Option TodoWithDependencies :=
  todos.find? (fun t => t.id == v)

/-- In-neighbours of a task in the analyzer graph: its dependency ids that
are themselves ids of input tasks (edges to unknown ids are ignored by the
builder). -/
def inNbrs (todos : List TodoWithDependencies) (v : Nat) : List Nat :=
  match taskOf todos v with
  | none => []
  | some t => (t.dependencies.map (fun d => d.id)).filter (fun u => (idsOf todos).contains u)

/-- Dependency edge of the analyzer graph: u is a dependency of the task v
and both are input ids. -/
def EdgeP (todos : List TodoWithDependencies) (u v : Nat) : Prop :=
  u ∈ inNbrs todos v

instance (todos : List TodoWithDependencies) (u v : Nat) :
    Decidable (EdgeP todos u v) := by
  unfold EdgeP
  exact inferInstance

/-- In-degree of a task in the analyzer graph. -/
def initIndeg (todos : List TodoWithDependencies) (v : Nat) : Nat :=
  (inNbrs todos v).length

/-- Dependents of a task in the analyzer graph, in input order: the ids of
the tasks that list u among their dependencies. -/
def outList (todos : List TodoWithDependencies) (u : Nat) : List Nat :=
  todos.filterMap
    (fun t => if (t.dependencies.map (fun d => d.id)).contains u then some t.id else none)

/-- Chain of dependencies leading into v: a nonempty sequence of input
task ids ending at v, each consecutive pair an actual dependency edge
(the earlier entry a dependency of the later).  Its length in edges is
one less than its length as a list. -/
def ChainTo (todos : List TodoWithDependencies) (v : Nat) (c : List Nat) : Prop :=
  c ≠ [] ∧ c.getLast? = some v ∧ List.Chain' (EdgeP todos) c ∧ ∀ x ∈ c, x ∈ idsOf todos

/-- Acyclicity of the analyzer graph. -/
def AcyclicP (todos : List TodoWithDependencies) : Prop :=
  ∀ v, ¬ Relation.TransGen (EdgeP todos) v v

/-- Well-formed analyzer input, as delivered by the store: task ids are
distinct and each dependency list mentions a dependency at most once. -/
def WellFormed (todos : List TodoWithDependencies) : Prop :=
  (idsOf todos).Nodup ∧ ∀ t ∈ todos, (t.dependencies.map (fun d => d.id)).Nodup

instance (todos : List TodoWithDependencies) : Decidable (WellFormed todos) := by
  unfold WellFormed
  exact inferInstance

/-- Dependency entries of the input flattened to (task id, dependency id)
pairs in traversal order of the graph-building pass. -/
def edgePairs (todos : List TodoWithDependencies) : List (Nat × Nat) :=
  todos.flatMap (fun t => t.dependencies.map (fun dep => (t.id, dep.id)))

/-- Roots of the analyzer graph: input ids of in-degree 0, in input
order. -/
def rootsOf (todos : List TodoWithDependencies) : List Nat :=
  (idsOf todos).filter (fun v => initIndeg todos v == 0)

/-- Invariant of the analyzer loop between iterations, relative to the
list p of tasks dequeued so far (in dequeue order). -/
structure KahnInv (todos : List TodoWithDependencies) (s : LoopState) (p : List Nat) : Prop where
  keysLev : ∀ v, (mapGet v s.levels).isSome ↔
    (v ∈ idsOf todos ∧ initIndeg todos v = 0) ∨ ∃ u ∈ p, EdgeP todos u v
  levToPar : ∀ v, (mapGet v s.levels).isSome → (mapGet v s.parent).isSome
  nodupPQ : (p ++ s.queue).Nodup
  memPQ : ∀ v ∈ p ++ s.queue, v ∈ idsOf todos
  indegKeys : ∀ v, (mapGet v s.inDegree).isSome ↔ v ∈ idsOf todos
  indegVal : ∀ v ∈ idsOf todos, mapGet v s.inDegree =
    some ((initIndeg todos v : Int) -
      ((inNbrs todos v).filter (fun u => decide (u ∈ p))).length)
  queueReady : ∀ v ∈ s.queue, ∀ u, EdgeP todos u v → u ∈ p
  procOrd : ∀ i, (h : i < p.length) → ∀ u, EdgeP todos u (p.get ⟨i, h⟩) → u ∈ p.take i
  complete : ∀ v ∈ idsOf todos, (∀ u, EdgeP todos u v → u ∈ p) → v ∈ p ++ s.queue
  levRoot : ∀ v ∈ idsOf todos, initIndeg todos v = 0 →
    mapGet v s.levels = some 0 ∧ mapGet v s.parent = some none
  levPos : ∀ v L, mapGet v s.levels = some L → 0 ≤ L ∧ (initIndeg todos v ≠ 0 → 1 ≤ L)
  levChain : ∀ v L, mapGet v s.levels = some L →
    ∃ c, ChainTo todos v c ∧ (c.length : Int) = L + 1
  levRelax : ∀ u ∈ p, ∀ v, EdgeP todos u v →
    ∃ L Lu, mapGet v s.levels = some L ∧ mapGet u s.levels = some Lu ∧ Lu + 1 ≤ L
  levBound : ∀ v L, mapGet v s.levels = some L → L ≤ (p.length : Int)
  procIdx : ∀ i, (h : i < p.length) → ∃ L, mapGet (p.get ⟨i, h⟩) s.levels = some L ∧ L ≤ (i : Int)
  pqLev : ∀ v ∈ p ++ s.queue, (mapGet v s.levels).isSome
  parSpec : ∀ v pv, mapGet v s.parent = some pv →
    (pv = none → v ∈ idsOf todos ∧ initIndeg todos v = 0) ∧
    ∀ u, pv = some u → EdgeP todos u v ∧ u ∈ p ∧
      ∃ L Lu, mapGet v s.levels = some L ∧ mapGet u s.levels = some Lu ∧ L = Lu + 1

/-- Invariant inside one iteration of the analyzer loop: the task current
has been dequeued after the tasks of p0, reads level curLev, and the
dependents listed in done have already been relaxed. -/
structure KahnMid (todos : List TodoWithDependencies) (current : Nat) (curLev : Int)
    (p0 done : List Nat) (s : LoopState) : Prop where
  keysLev : ∀ v, (mapGet v s.levels).isSome ↔
    (v ∈ idsOf todos ∧ initIndeg todos v = 0) ∨ (∃ u ∈ p0, EdgeP todos u v) ∨ v ∈ done
  levToPar : ∀ v, (mapGet v s.levels).isSome → (mapGet v s.parent).isSome
  nodupPQ : ((p0 ++ [current]) ++ s.queue).Nodup
  memPQ : ∀ v ∈ (p0 ++ [current]) ++ s.queue, v ∈ idsOf todos
  indegKeys : ∀ v, (mapGet v s.inDegree).isSome ↔ v ∈ idsOf todos
  indegVal : ∀ v ∈ idsOf todos, mapGet v s.inDegree =
    some ((initIndeg todos v : Int) -
      ((inNbrs todos v).filter (fun u => decide (u ∈ p0))).length -
      (if v ∈ done then 1 else 0))
  queueReady : ∀ v ∈ s.queue, (∀ u, EdgeP todos u v → u ∈ p0 ++ [current]) ∧
    (EdgeP todos current v → v ∈ done)
  procOrd : ∀ i, (h : i < (p0 ++ [current]).length) →
    ∀ u, EdgeP todos u ((p0 ++ [current]).get ⟨i, h⟩) → u ∈ (p0 ++ [current]).take i
  complete : ∀ v ∈ idsOf todos,
    (∀ u, EdgeP todos u v → u ∈ p0 ∨ (u = current ∧ v ∈ done)) →
    v ∈ (p0 ++ [current]) ++ s.queue
  levRoot : ∀ v ∈ idsOf todos, initIndeg todos v = 0 →
    mapGet v s.levels = some 0 ∧ mapGet v s.parent = some none
  levPos : ∀ v L, mapGet v s.levels = some L → 0 ≤ L ∧ (initIndeg todos v ≠ 0 → 1 ≤ L)
  levChain : ∀ v L, mapGet v s.levels = some L →
    ∃ c, ChainTo todos v c ∧ (c.length : Int) = L + 1
  levRelax : ∀ u ∈ p0, ∀ v, EdgeP todos u v →
    ∃ L Lu, mapGet v s.levels = some L ∧ mapGet u s.levels = some Lu ∧ Lu + 1 ≤ L
  relaxDone : ∀ v ∈ done, ∃ L, mapGet v s.levels = some L ∧ curLev + 1 ≤ L
  levBound : ∀ v L, mapGet v s.levels = some L → L ≤ (p0.length : Int) + 1
  procIdx : ∀ i, (h : i < (p0 ++ [current]).length) →
    ∃ L, mapGet ((p0 ++ [current]).get ⟨i, h⟩) s.levels = some L ∧ L ≤ (i : Int)
  pqLev : ∀ v ∈ (p0 ++ [current]) ++ s.queue, (mapGet v s.levels).isSome
  parSpec : ∀ v pv, mapGet v s.parent = some pv →
    (pv = none → v ∈ idsOf todos ∧ initIndeg todos v = 0) ∧
    ∀ u, pv = some u → EdgeP todos u v ∧ u ∈ p0 ++ [current] ∧
      ∃ L Lu, mapGet v s.levels = some L ∧ mapGet u s.levels = some Lu ∧ L = Lu + 1
  curLevEq : mapGet current s.levels = some curLev
  curLevLe : curLev ≤ (p0.length : Int)
  doneSub : ∀ v ∈ done, EdgeP todos current v

/-- Response of the POST route. -/
inductive PostResp where
  | created (todo : Todo)
  | badRequest (error : String)
  | serverError (error : String)
deriving Repr, DecidableEq

/-- Response of the PATCH route. -/
inductive PatchResp where
  | ok (todo : Todo)
  | badRequest (error : String)
  | notFound (error : String)
  | serverError (error : String)
deriving Repr, DecidableEq

/-- Rejection responses of POST. -/
def PostResp.isErr : PostResp → Bool
  | .created _ => false
  | .badRequest _ => true
  | .serverError _ => true

/-- Rejection responses of PATCH. -/
def PatchResp.isErr : PatchResp → Bool
  | .ok _ => false
  | .badRequest _ => true
  | .notFound _ => true
  | .serverError _ => true

/-- Id handed to a newly created row by the autoincrement column: one more
than the largest id in use. -/
def freshId (store : List Todo) : Nat :=
  store.foldl (fun m t => max m t.id) 0 + 1

/-- Deletion of a row. -/
def removeTodo (store : List Todo) (i : Nat) : List Todo :=
  store.filter (fun t => ¬ t.id = i)

/-- Replacement of the dependency set of a row (set to empty, then connect
the given ids). -/
def setDeps (store : List Todo) (i : Nat) (deps : List Nat) : List Todo :=
  store.map (fun t => if t.id = i then { t with depIds := deps } else t)

/-- Final step of POST: connect the dependency ids to the created row.
Connecting an id with no row fails in the ORM, which the route surfaces as
a generic 500 error without deleting the created row. -/
def postConnect (store1 : List Todo) (todo : Todo) (dependencyIds : List Nat) :
    PostResp × List Todo :=
  if dependencyIds.all (fun d => (findTodo store1 d).isSome) then
    let store2 := setDeps store1 todo.id dependencyIds
    (match findTodo store2 todo.id with
     | some finalTodo => .created finalTodo
     | none => .serverError "Error creating todo", store2)
  else (.serverError "Error creating todo", store1)

/-- POST route handler: create the row first, then validate the proposed
dependency ids (cycle check against the store that already holds the new
row, then due dates), deleting the created row on a validation failure.
The side call that downloads a stock photo touches no todo state and is
omitted. -/
def POST (store : List Todo) (title : String) (dueDate : Option Int)
    (dependencyIds : List Nat) : PostResp × List Todo :=
  if title.trim = "" then (.badRequest "Title is required", store)
  else
    let todo : Todo := { id := freshId store, title := title, dueDate := dueDate, depIds := [] }
    let store1 := store ++ [todo]
    if dependencyIds.length > 0 then
      if hasCircularDependency store1 todo.id dependencyIds then
        (.badRequest "Cannot add dependencies: would create circular dependency",
         removeTodo store1 todo.id)
      else
        match dueDate with
        | some newDue =>
          match (store1.filter (fun t => dependencyIds.contains t.id)).find?
              (fun dep => match dep.dueDate with
                | some dd => decide (dd > newDue)
                | none => false) with
          | some dep =>
            (.badRequest ("Dependency \"" ++ dep.title ++ "\" has a due date after the new todo."),
             removeTodo store1 todo.id)
          | none => postConnect store1 todo dependencyIds
        | none => postConnect store1 todo dependencyIds
    else (.created todo, store1)

/-- Final step of PATCH: the unconditional update call.  Updating a
missing row or connecting a missing id fails in the ORM, surfaced as a
generic 500 error with the store unchanged. -/
def patchUpdate (store : List Todo) (id : Nat) (dependencyIds : List Nat) :
    PatchResp × List Todo :=
  match findTodo store id with
  | none => (.serverError "Error updating dependencies", store)
  | some _ =>
    if dependencyIds.all (fun d => (findTodo store d).isSome) then
      let store2 := setDeps store id dependencyIds
      (match findTodo store2 id with
       | some t => .ok t
       | none => .serverError "Error updating dependencies", store2)
    else (.serverError "Error updating dependencies", store)

/-- PATCH route handler: with a nonempty proposed dependency set, check
existence of the target, then cycles, then due dates, and only then
replace the dependency set wholesale. -/
def PATCH (store : List Todo) (id : Nat) (dependencyIds : List Nat) :
    PatchResp × List Todo :=
  if dependencyIds.length > 0 then
    match findTodo store id with
    | none => (.notFound "Todo not found", store)
    | some existingTodo =>
      if hasCircularDependency store id dependencyIds then
        (.badRequest "Cannot add dependencies: would create circular dependency", store)
      else
        match existingTodo.dueDate with
        | some dd =>
          match (store.filter (fun t => dependencyIds.contains t.id)).find?
              (fun dep => match dep.dueDate with
                | some x => decide (x > dd)
                | none => false) with
          | some dep =>
            (.badRequest ("Dependency \"" ++ dep.title ++ "\" has a due date after the current todo."),
             store)
          | none => patchUpdate store id dependencyIds
        | none => patchUpdate store id dependencyIds
  else patchUpdate store id dependencyIds

/-- Due-date violation of a proposed dependency set against a due date:
some proposed dependency row carries a later due date. -/
def DueViolation (store : List Todo) (dd : Int) (dependencyIds : List Nat) : Prop :=
  ∃ dep ∈ store, dep.id ∈ dependencyIds ∧ ∃ x, dep.dueDate = some x ∧ dd < x

instance (store : List Todo) (dd : Int) (dependencyIds : List Nat) :
    Decidable (DueViolation store dd dependencyIds) := by
  unfold DueViolation
  exact inferInstance

theorem edgeS_iff_depsOfId (store : List Todo) (u v : Nat) :
    EdgeS store u v ↔ u ∈ depsOfId store v := by
  unfold EdgeS depsOfId
  cases h : findTodo store v with
  | none => simp
  | some t => simp

theorem hasPathLoop_suffix (search : Nat → Nat → List Nat → Bool × List Nat)
    (hs : ∀ d t vis, vis <:+ (search d t vis).2) :
    ∀ ds t vis, vis <:+ (hasPathLoop search ds t vis).2 := by
  intro ds
  induction ds with
  | nil => intro t vis; exact List.suffix_refl _
  | cons d ds ih =>
    intro t vis
    unfold hasPathLoop
    cases h : search d t vis with
    | mk b vis' =>
      have h2 : vis <:+ vis' := by
        have := hs d t vis
        rw [h] at this
        exact this
      cases b with
      | true => exact h2
      | false => exact h2.trans (ih t vis')

theorem hasPathFuel_suffix (store : List Todo) :
    ∀ fuel f t vis, vis <:+ (hasPathFuel store fuel f t vis).2 := by
  intro fuel
  induction fuel with
  | zero => intro f t vis; exact List.suffix_refl _
  | succ fuel ih =>
    intro f t vis
    unfold hasPathFuel
    by_cases h1 : f == t
    · simp [h1]
    · rw [if_neg h1]
      by_cases h2 : f ∈ vis
      · simp [h2]
      · rw [if_neg (by simp [h2])]
        cases h3 : findTodo store f with
        | none => exact (List.suffix_cons f vis)
        | some todo =>
          exact (List.suffix_cons f vis).trans
            (hasPathLoop_suffix _ (fun d t vis => ih d t vis) _ t (f :: vis))

theorem hasPathLoop_sound (store : List Todo)
    (search : Nat → Nat → List Nat → Bool × List Nat)
    (hs : ∀ d t vis, (search d t vis).1 = true → ReachS store d t) :
    ∀ ds t vis, (hasPathLoop search ds t vis).1 = true → ∃ d ∈ ds, ReachS store d t := by
  intro ds
  induction ds with
  | nil => intro t vis h; simp [hasPathLoop] at h
  | cons d ds ih =>
    intro t vis h
    unfold hasPathLoop at h
    cases hsd : search d t vis with
    | mk b vis' =>
      rw [hsd] at h
      cases b with
      | true =>
        refine ⟨d, List.mem_cons_self d ds, ?_⟩
        apply hs d t vis
        rw [hsd]
      | false =>
        obtain ⟨d', hd', hr⟩ := ih t vis' h
        exact ⟨d', List.mem_cons_of_mem d hd', hr⟩

theorem hasPathFuel_sound (store : List Todo) :
    ∀ fuel f t vis, (hasPathFuel store fuel f t vis).1 = true → ReachS store f t := by
  intro fuel
  induction fuel with
  | zero => intro f t vis h; simp [hasPathFuel] at h
  | succ fuel ih =>
    intro f t vis h
    unfold hasPathFuel at h
    by_cases h1 : f == t
    · have : f = t := by simpa using h1
      subst this
      exact Relation.ReflTransGen.refl
    · rw [if_neg h1] at h
      by_cases h2 : f ∈ vis
      · simp [h2] at h
      · rw [if_neg (by simp [h2])] at h
        cases h3 : findTodo store f with
        | none => rw [h3] at h; simp at h
        | some todo =>
          rw [h3] at h
          obtain ⟨d, hd, hr⟩ :=
            hasPathLoop_sound store _ (fun d t vis => ih d t vis) _ t (f :: vis) h
          exact Relation.ReflTransGen.head ⟨todo, h3, hd⟩ hr

theorem findTodo_mem_storeIds {store : List Todo} {f : Nat} {todo : Todo}
    (h : findTodo store f = some todo) : f ∈ storeIds store := by
  unfold findTodo at h
  have hmem : todo ∈ store := List.mem_of_find?_eq_some h
  have hid : (todo.id == f) = true :=
    List.find?_some (p := fun t => t.id == f) (l := store) (a := todo) h
  have : todo.id = f := by simpa using hid
  unfold storeIds
  rw [List.mem_toFinset]
  exact this ▸ List.mem_map_of_mem Todo.id hmem

theorem freshCount_cons_lt {store : List Todo} {f : Nat} {vis : List Nat}
    (hf : f ∈ storeIds store) (hnf : f ∉ vis) :
    freshCount store (f :: vis) < freshCount store vis := by
  unfold freshCount
  have h1 : (f :: vis).toFinset = insert f vis.toFinset := by simp
  rw [h1, Finset.sdiff_insert]
  apply Finset.card_erase_lt_of_mem
  rw [Finset.mem_sdiff, List.mem_toFinset]
  exact ⟨hf, hnf⟩

theorem freshCount_le_of_suffix {store : List Todo} {vis vis' : List Nat}
    (h : vis <:+ vis') : freshCount store vis' ≤ freshCount store vis := by
  unfold freshCount
  apply Finset.card_le_card
  apply Finset.sdiff_subset_sdiff (le_refl _)
  intro x hx
  rw [List.mem_toFinset] at hx ⊢
  exact h.subset hx

theorem freshCount_nil_le (store : List Todo) :
    freshCount store [] ≤ store.length := by
  unfold freshCount storeIds
  simp only [List.toFinset_nil, Finset.sdiff_empty]
  calc (store.map Todo.id).toFinset.card ≤ (store.map Todo.id).length :=
        List.toFinset_card_le _
    _ = store.length := List.length_map _ _

theorem hasPathLoop_false_closed (store : List Todo) (fuel : Nat)
    (hfuel : ∀ f t vis, freshCount store vis < fuel → t ∉ vis →
      (hasPathFuel store fuel f t vis).1 = false →
      f ∈ (hasPathFuel store fuel f t vis).2 ∧
      t ∉ (hasPathFuel store fuel f t vis).2 ∧
      ∀ v ∈ (hasPathFuel store fuel f t vis).2, v ∉ vis →
        ∀ u ∈ depsOfId store v, u ∈ (hasPathFuel store fuel f t vis).2) :
    ∀ ds t vis, freshCount store vis < fuel → t ∉ vis →
    (hasPathLoop (hasPathFuel store fuel) ds t vis).1 = false →
    (∀ d ∈ ds, d ∈ (hasPathLoop (hasPathFuel store fuel) ds t vis).2) ∧
    t ∉ (hasPathLoop (hasPathFuel store fuel) ds t vis).2 ∧
    ∀ v ∈ (hasPathLoop (hasPathFuel store fuel) ds t vis).2, v ∉ vis →
      ∀ u ∈ depsOfId store v, u ∈ (hasPathLoop (hasPathFuel store fuel) ds t vis).2 := by
  intro ds
  induction ds with
  | nil =>
    intro t vis hlt ht hfalse
    refine ⟨by simp, ?_, ?_⟩
    · simpa [hasPathLoop] using ht
    · intro v hv hnv u hu
      simp only [hasPathLoop] at hv ⊢
      exact absurd hv hnv
  | cons d ds ih =>
    intro t vis hlt ht hfalse
    have hloop : hasPathLoop (hasPathFuel store fuel) (d :: ds) t vis =
        match hasPathFuel store fuel d t vis with
        | (true, vis') => (true, vis')
        | (false, vis') => hasPathLoop (hasPathFuel store fuel) ds t vis' := rfl
    cases hr : hasPathFuel store fuel d t vis with
    | mk b vis' =>
      cases b with
      | true =>
        exfalso
        rw [hloop, hr] at hfalse
        simp at hfalse
      | false =>
        have hsub : vis <:+ vis' := by
          have := hasPathFuel_suffix store fuel d t vis
          rw [hr] at this
          exact this
        obtain ⟨hd, ht', hcl⟩ := hfuel d t vis hlt ht (by rw [hr])
        rw [hr] at hd ht' hcl
        have hlt' : freshCount store vis' < fuel :=
          lt_of_le_of_lt (freshCount_le_of_suffix hsub) hlt
        have hfalse' : (hasPathLoop (hasPathFuel store fuel) ds t vis').1 = false := by
          rw [hloop, hr] at hfalse
          exact hfalse
        obtain ⟨hds, ht2, hcl2⟩ := ih t vis' hlt' ht' hfalse'
        have hsub2 : vis' <:+ (hasPathLoop (hasPathFuel store fuel) ds t vis').2 :=
          hasPathLoop_suffix _ (fun a b c => hasPathFuel_suffix store fuel a b c) ds t vis'
        rw [hloop, hr]
        refine ⟨?_, ht2, ?_⟩
        · intro x hx
          rcases List.mem_cons.mp hx with hxd | hxds
          · exact hsub2.subset (hxd ▸ hd)
          · exact hds x hxds
        · intro v hv hnv u hu
          by_cases hvv : v ∈ vis'
          · exact hsub2.subset (hcl v hvv hnv u hu)
          · exact hcl2 v hv hvv u hu

theorem hasPathFuel_false_closed (store : List Todo) :
    ∀ fuel f t vis, freshCount store vis < fuel → t ∉ vis →
    (hasPathFuel store fuel f t vis).1 = false →
    f ∈ (hasPathFuel store fuel f t vis).2 ∧
    t ∉ (hasPathFuel store fuel f t vis).2 ∧
    ∀ v ∈ (hasPathFuel store fuel f t vis).2, v ∉ vis →
      ∀ u ∈ depsOfId store v, u ∈ (hasPathFuel store fuel f t vis).2 := by
  intro fuel
  induction fuel with
  | zero => intro f t vis hlt; exact absurd hlt (Nat.not_lt_zero _)
  | succ fuel ih =>
    intro f t vis hlt ht hfalse
    by_cases h1 : f == t
    · have heq : hasPathFuel store (fuel + 1) f t vis = (true, vis) := by
        unfold hasPathFuel
        rw [if_pos h1]
      rw [heq] at hfalse
      simp at hfalse
    · have hft : f ≠ t := by simpa using h1
      by_cases h2 : f ∈ vis
      · have heq : hasPathFuel store (fuel + 1) f t vis = (false, vis) := by
          unfold hasPathFuel
          rw [if_neg h1, if_pos (by simpa using h2)]
        rw [heq]
        refine ⟨h2, ht, ?_⟩
        intro v hv hnv
        exact absurd hv hnv
      · cases h3 : findTodo store f with
        | none =>
          have heq : hasPathFuel store (fuel + 1) f t vis = (false, f :: vis) := by
            unfold hasPathFuel
            rw [if_neg h1, if_neg (by simp [h2]), h3]
          rw [heq]
          refine ⟨by simp, ?_, ?_⟩
          · intro hc
            rcases List.mem_cons.mp hc with hc | hc
            · exact hft hc.symm
            · exact ht hc
          · intro v hv hnv u hu
            have hvf : v = f := by
              rcases List.mem_cons.mp hv with hc | hc
              · exact hc
              · exact absurd hc hnv
            subst hvf
            unfold depsOfId at hu
            rw [h3] at hu
            simp at hu
        | some todo =>
          have heq : hasPathFuel store (fuel + 1) f t vis =
              hasPathLoop (hasPathFuel store fuel) (resolvedDeps store todo) t (f :: vis) := by
            unfold hasPathFuel
            rw [if_neg h1, if_neg (by simp [h2]), h3]
          rw [heq] at hfalse ⊢
          have hfid : f ∈ storeIds store := findTodo_mem_storeIds h3
          have hlt' : freshCount store (f :: vis) < fuel := by
            have hdec := freshCount_cons_lt hfid h2
            omega
          have ht' : t ∉ f :: vis := by
            intro hc
            rcases List.mem_cons.mp hc with hc | hc
            · exact hft hc.symm
            · exact ht hc
          obtain ⟨hds, ht2, hcl⟩ :=
            hasPathLoop_false_closed store fuel ih (resolvedDeps store todo) t (f :: vis)
              hlt' ht' hfalse
          have hsub : (f :: vis) <:+
              (hasPathLoop (hasPathFuel store fuel) (resolvedDeps store todo) t (f :: vis)).2 :=
            hasPathLoop_suffix _ (fun a b c => hasPathFuel_suffix store fuel a b c) _ t _
          refine ⟨hsub.subset (List.mem_cons_self f vis), ht2, ?_⟩
          intro v hv hnv u hu
          by_cases hvf : v = f
          · subst hvf
            unfold depsOfId at hu
            rw [h3] at hu
            exact hds u hu
          · apply hcl v hv ?_ u hu
            intro hc
            rcases List.mem_cons.mp hc with hc | hc
            · exact hvf hc
            · exact hnv hc

theorem hasPath_complete {store : List Todo} {f t : Nat}
    (h : ReachS store f t) : hasPath store f t = true := by
  by_contra hfalse
  rw [Bool.not_eq_true] at hfalse
  unfold hasPath at hfalse
  have hlt : freshCount store [] < store.length + 1 :=
    Nat.lt_succ_of_le (freshCount_nil_le store)
  obtain ⟨hf, ht, hcl⟩ :=
    hasPathFuel_false_closed store (store.length + 1) f t [] hlt (by simp) hfalse
  have hreach : ∀ x, ReachS store f x →
      x ∈ (hasPathFuel store (store.length + 1) f t []).2 := by
    intro x hx
    induction hx with
    | refl => exact hf
    | tail h1 h2 ih =>
      rename_i b c
      have hc : c ∈ depsOfId store b := (edgeS_iff_depsOfId store c b).mp h2
      exact hcl b ih (by simp) c hc
  exact ht (hreach t h)

theorem hasPath_iff_reach (store : List Todo) (f t : Nat) :
    hasPath store f t = true ↔ ReachS store f t :=
  ⟨fun h => hasPathFuel_sound store (store.length + 1) f t [] h, hasPath_complete⟩

theorem hasCircularDependency_iff_reach (store : List Todo) (todoId : Nat)
    (dependencyIds : List Nat) :
    hasCircularDependency store todoId dependencyIds = true ↔
      ∃ d ∈ dependencyIds, ReachS store d todoId := by
  unfold hasCircularDependency
  rw [List.any_eq_true]
  constructor
  · rintro ⟨d, hd, hp⟩
    exact ⟨d, hd, (hasPath_iff_reach store d todoId).mp hp⟩
  · rintro ⟨d, hd, hr⟩
    exact ⟨d, hd, (hasPath_iff_reach store d todoId).mpr hr⟩

theorem hasPathLoop_nodup (search : Nat → Nat → List Nat → Bool × List Nat)
    (hs : ∀ d t vis, vis.Nodup → (search d t vis).2.Nodup) :
    ∀ ds t vis, vis.Nodup → (hasPathLoop search ds t vis).2.Nodup := by
  intro ds
  induction ds with
  | nil => intro t vis h; exact h
  | cons d ds ih =>
    intro t vis h
    unfold hasPathLoop
    cases hr : search d t vis with
    | mk b vis' =>
      have h2 : vis'.Nodup := by
        have := hs d t vis h
        rw [hr] at this
        exact this
      cases b with
      | true => exact h2
      | false => exact ih t vis' h2

theorem hasPathFuel_nodup (store : List Todo) :
    ∀ fuel f t vis, vis.Nodup → (hasPathFuel store fuel f t vis).2.Nodup := by
  intro fuel
  induction fuel with
  | zero => intro f t vis h; exact h
  | succ fuel ih =>
    intro f t vis h
    unfold hasPathFuel
    by_cases h1 : f == t
    · rw [if_pos h1]; exact h
    · rw [if_neg h1]
      by_cases h2 : f ∈ vis
      · rw [if_pos (by simpa using h2)]; exact h
      · rw [if_neg (by simp [h2])]
        have hcons : (f :: vis).Nodup := List.nodup_cons.mpr ⟨h2, h⟩
        cases h3 : findTodo store f with
        | none => exact hcons
        | some todo =>
          exact hasPathLoop_nodup _ (fun a b c => ih a b c) _ t (f :: vis) hcons

theorem hasPathLoop_congr (s1 s2 : Nat → Nat → List Nat → Bool × List Nat)
    (vis0 : List Nat)
    (hmono : ∀ d t vis, vis <:+ (s2 d t vis).2)
    (h : ∀ d t vis, vis0 <:+ vis → s1 d t vis = s2 d t vis) :
    ∀ ds t vis, vis0 <:+ vis →
      hasPathLoop s1 ds t vis = hasPathLoop s2 ds t vis := by
  intro ds
  induction ds with
  | nil => intro t vis hv; rfl
  | cons d ds ih =>
    intro t vis hv
    unfold hasPathLoop
    rw [h d t vis hv]
    cases hr : s2 d t vis with
    | mk b vis' =>
      have hv' : vis0 <:+ vis' := by
        have := hmono d t vis
        rw [hr] at this
        exact hv.trans this
      cases b with
      | true => rfl
      | false => exact ih t vis' hv'

theorem hasPathFuel_succ_eq (store : List Todo) :
    ∀ fuel f t vis, freshCount store vis < fuel →
      hasPathFuel store (fuel + 1) f t vis = hasPathFuel store fuel f t vis := by
  intro fuel
  induction fuel with
  | zero => intro f t vis hlt; exact absurd hlt (Nat.not_lt_zero _)
  | succ fuel ih =>
    intro f t vis hlt
    conv_lhs => unfold hasPathFuel
    conv_rhs => unfold hasPathFuel
    by_cases h1 : f == t
    · rw [if_pos h1, if_pos h1]
    · rw [if_neg h1, if_neg h1]
      by_cases h2 : f ∈ vis
      · rw [if_pos (by simpa using h2), if_pos (by simpa using h2)]
      · rw [if_neg (by simp [h2]), if_neg (by simp [h2])]
        cases h3 : findTodo store f with
        | none => rfl
        | some todo =>
          have hfid : f ∈ storeIds store := findTodo_mem_storeIds h3
          have hlt' : freshCount store (f :: vis) < fuel := by
            have hdec := freshCount_cons_lt hfid h2
            omega
          apply hasPathLoop_congr (hasPathFuel store (fuel + 1)) (hasPathFuel store fuel)
            (f :: vis) (fun a b c => hasPathFuel_suffix store fuel a b c)
          · intro d t' vis' hsuf
            apply ih
            exact lt_of_le_of_lt (freshCount_le_of_suffix hsuf) hlt'
          · exact List.suffix_refl _

theorem hasPathFuel_add_eq (store : List Todo) :
    ∀ k fuel f t vis, freshCount store vis < fuel →
      hasPathFuel store (fuel + k) f t vis = hasPathFuel store fuel f t vis := by
  intro k
  induction k with
  | zero => intro fuel f t vis hlt; rfl
  | succ k ih =>
    intro fuel f t vis hlt
    have h1 : fuel + (k + 1) = (fuel + k) + 1 := by omega
    rw [h1, hasPathFuel_succ_eq store (fuel + k) f t vis (by omega), ih fuel f t vis hlt]

theorem hasPathFuel_stable (store : List Todo) (f t : Nat) {fuel1 fuel2 : Nat}
    (h1 : store.length < fuel1) (h2 : store.length < fuel2) :
    hasPathFuel store fuel1 f t [] = hasPathFuel store fuel2 f t [] := by
  have hb : freshCount store [] < store.length + 1 :=
    Nat.lt_succ_of_le (freshCount_nil_le store)
  have e1 : fuel1 = (store.length + 1) + (fuel1 - (store.length + 1)) := by omega
  have e2 : fuel2 = (store.length + 1) + (fuel2 - (store.length + 1)) := by omega
  rw [e1, e2, hasPathFuel_add_eq store _ _ f t [] hb, hasPathFuel_add_eq store _ _ f t [] hb]

/-- C1: for every store and every task id with proposed dependency ids,
hasCircularDependency returns true exactly when the task id is reachable
from some proposed dependency along existing dependency edges (the
reflexive case covering a length-1 self dependency); in particular, when
task 1 already depends on task 2, proposing [1] as the dependency set of
task 2 reports a cycle and the PATCH edit is rejected with the store
unchanged. -/
theorem claim1_hasCircularDependency_iff :
    (∀ (store : List Todo) (todoId : Nat) (dependencyIds : List Nat),
      hasCircularDependency store todoId dependencyIds = true ↔
        ∃ d ∈ dependencyIds, ReachS store d todoId) ∧
    (hasCircularDependency [⟨1, "task1", none, [2]⟩, ⟨2, "task2", none, []⟩] 2 [1] = true ∧
      (PATCH [⟨1, "task1", none, [2]⟩, ⟨2, "task2", none, []⟩] 2 [1]).1.isErr = true ∧
      (PATCH [⟨1, "task1", none, [2]⟩, ⟨2, "task2", none, []⟩] 2 [1]).2 =
        [⟨1, "task1", none, [2]⟩, ⟨2, "task2", none, []⟩]) :=
  ⟨hasCircularDependency_iff_reach, by decide, by decide, by decide⟩

/-- C9: the fuel-indexed search computes one and the same value under
every fuel beyond the number of rows, with an empty starting visited set,
and that value is hasPath; moreover the visited set it builds never
repeats a node, so each node is expanded at most once.  This is the
shallow-embedding form of termination of the recursion on any graph,
malformed ones included. -/
theorem claim9_hasPath_terminates :
    ∀ (store : List Todo) (fromId toId : Nat) (fuel1 fuel2 : Nat),
      store.length < fuel1 → store.length < fuel2 →
      hasPathFuel store fuel1 fromId toId [] = hasPathFuel store fuel2 fromId toId [] ∧
      (hasPathFuel store fuel1 fromId toId []).1 = hasPath store fromId toId ∧
      (hasPathFuel store fuel1 fromId toId []).2.Nodup := by
  intro store f t fuel1 fuel2 h1 h2
  refine ⟨hasPathFuel_stable store f t h1 h2, ?_,
    hasPathFuel_nodup store fuel1 f t [] (by simp)⟩
  unfold hasPath
  rw [hasPathFuel_stable store f t h1 (Nat.lt_succ_self _)]

theorem claim9_witness :
    hasPathFuel [⟨1, "w", none, []⟩] 2 1 1 [] = hasPathFuel [⟨1, "w", none, []⟩] 5 1 1 [] ∧
    (hasPathFuel [⟨1, "w", none, []⟩] 2 1 1 []).1 = hasPath [⟨1, "w", none, []⟩] 1 1 ∧
    (hasPathFuel [⟨1, "w", none, []⟩] 2 1 1 []).2.Nodup :=
  claim9_hasPath_terminates [⟨1, "w", none, []⟩] 1 1 2 5 (by decide) (by decide)

/-- C10 counterexample: the id 1 is absent from the empty store, yet
proposing the dependency set [1] for task id 1 reports a cycle, because
the search short-circuits on the equality of the two ids before consulting
the store.  This refutes the claim that a dependency set containing only
nonexistent ids always passes the cycle check. -/
theorem claim10_counterexample :
    hasCircularDependency [] 1 [1] = true := by decide

/-- C10 amended: for every toId and every fromId distinct from toId that
refers to no row of the store, hasPath returns false; hence the cycle
checker never reports a cycle for a proposed dependency id that is absent
from the store and distinct from the task id, and a dependency set all of
whose members are nonexistent ids distinct from the task id passes the
cycle check. -/
theorem claim10_amended :
    ∀ (store : List Todo) (toId fromId : Nat) (dependencyIds : List Nat),
      (fromId ≠ toId → findTodo store fromId = none →
        hasPath store fromId toId = false) ∧
      ((∀ d ∈ dependencyIds, d ≠ toId ∧ findTodo store d = none) →
        hasCircularDependency store toId dependencyIds = false) := by
  intro store toId fromId dependencyIds
  have ha : ∀ g : Nat, g ≠ toId → findTodo store g = none →
      hasPath store g toId = false := by
    intro g hne hnone
    unfold hasPath hasPathFuel
    rw [if_neg (by simp [hne]), if_neg (by simp), hnone]
  refine ⟨ha fromId, ?_⟩
  intro h
  unfold hasCircularDependency
  rw [List.any_eq_false]
  intro d hd
  obtain ⟨hne, hnone⟩ := h d hd
  simp [ha d hne hnone]

theorem claim10_witness :
    hasPath [⟨1, "w", none, []⟩] 9 1 = false ∧
    hasCircularDependency [⟨1, "w", none, []⟩] 1 [8, 9] = false :=
  ⟨(claim10_amended [⟨1, "w", none, []⟩] 1 9 [8, 9]).1 (by decide) (by decide),
   (claim10_amended [⟨1, "w", none, []⟩] 1 9 [8, 9]).2 (by decide)⟩

theorem foldl_max_ge (store : List Todo) :
    ∀ init : Nat, init ≤ store.foldl (fun m t => max m t.id) init ∧
      ∀ t ∈ store, t.id ≤ store.foldl (fun m t => max m t.id) init := by
  induction store with
  | nil => intro init; exact ⟨le_refl _, by simp⟩
  | cons hd tl ih =>
    intro init
    have h1 := ih (max init hd.id)
    refine ⟨le_trans (le_max_left _ _) h1.1, ?_⟩
    intro t ht
    rcases List.mem_cons.mp ht with h | h
    · subst h
      exact le_trans (le_max_right init t.id) h1.1
    · exact h1.2 t h

theorem freshId_not_used {store : List Todo} {t : Todo} (h : t ∈ store) :
    t.id ≠ freshId store := by
  have := (foldl_max_ge store 0).2 t h
  unfold freshId
  omega

theorem removeTodo_fresh (store : List Todo) (tl : Todo)
    (h : tl.id = freshId store) :
    removeTodo (store ++ [tl]) (freshId store) = store := by
  unfold removeTodo
  rw [List.filter_append]
  have h1 : List.filter (fun t => decide ¬t.id = freshId store) store = store := by
    apply List.filter_eq_self.mpr
    intro t ht
    simp [freshId_not_used ht]
  have h2 : List.filter (fun t => decide ¬t.id = freshId store) [tl] = [] := by
    simp [h]
  rw [h1, h2, List.append_nil]

theorem find_viol_isSome {store : List Todo} {dd : Int} {depIds : List Nat}
    (big : List Todo) (hsub : ∀ x ∈ store, x ∈ big)
    (h : DueViolation store dd depIds) :
    ((big.filter (fun t => depIds.contains t.id)).find?
      (fun dep => match dep.dueDate with
        | some x => decide (x > dd)
        | none => false)).isSome := by
  obtain ⟨dep, hmem, hid, x, hx, hlt⟩ := h
  rw [List.find?_isSome]
  refine ⟨dep, ?_, ?_⟩
  · rw [List.mem_filter]
    exact ⟨hsub dep hmem, by simpa using hid⟩
  · rw [hx]
    simpa using hlt

/-- C8: the PATCH edit validates a nonempty proposed dependency set the
same way as creation: when the set would create a cycle, or when the
target exists with a due date and some proposed dependency row carries a
later due date, the request is rejected and the store, in particular the
stored dependency set of the task, is left unchanged. -/
theorem claim8_patch_rejects :
    ∀ (store : List Todo) (id : Nat) (dependencyIds : List Nat),
      (hasCircularDependency store id dependencyIds = true ∨
        ∃ t dd, findTodo store id = some t ∧ t.dueDate = some dd ∧
          DueViolation store dd dependencyIds) →
      (PATCH store id dependencyIds).2 = store ∧
      (PATCH store id dependencyIds).1.isErr = true := by
  intro store id dependencyIds h
  have hlen : dependencyIds.length > 0 := by
    rcases h with h | ⟨t, dd, _, _, dep, _, hid, _⟩
    · unfold hasCircularDependency at h
      rw [List.any_eq_true] at h
      obtain ⟨d, hd, _⟩ := h
      exact List.length_pos.mpr (List.ne_nil_of_mem hd)
    · exact List.length_pos.mpr (List.ne_nil_of_mem hid)
  unfold PATCH
  rw [if_pos hlen]
  cases hfind : findTodo store id with
  | none => exact ⟨rfl, rfl⟩
  | some t =>
    dsimp only
    by_cases hc : hasCircularDependency store id dependencyIds = true
    · rw [if_pos hc]
      exact ⟨rfl, rfl⟩
    · rw [if_neg hc]
      rcases h with h | ⟨t', dd, hfind', hdue, hviol⟩
      · exact absurd h hc
      · rw [hfind] at hfind'
        have ht : t = t' := Option.some.inj hfind'
        subst ht
        rw [hdue]
        dsimp only
        have hsome := find_viol_isSome store (fun x hx => hx) hviol
        cases hfd : (store.filter (fun t => dependencyIds.contains t.id)).find?
            (fun dep => match dep.dueDate with
              | some x => decide (x > dd)
              | none => false) with
        | none => rw [hfd] at hsome; simp at hsome
        | some dep => exact ⟨rfl, rfl⟩

theorem claim8_witness :
    (PATCH [⟨1, "a", none, [2]⟩, ⟨2, "b", none, []⟩] 2 [1]).2 =
      [⟨1, "a", none, [2]⟩, ⟨2, "b", none, []⟩] ∧
    (PATCH [⟨1, "a", none, [2]⟩, ⟨2, "b", none, []⟩] 2 [1]).1.isErr = true :=
  claim8_patch_rejects [⟨1, "a", none, [2]⟩, ⟨2, "b", none, []⟩] 2 [1] (Or.inl (by decide))

/-- C7: task creation is rejected, and the row created first is deleted
again so that the store is exactly as before, whenever the supplied
dependency ids would introduce a cycle (checked against the store that
already holds the new row) or some supplied dependency row carries a due
date later than the due date of the new task; the rejection carries a
human-readable error message. -/
theorem claim7_post_rejects :
    ∀ (store : List Todo) (title : String) (dueDate : Option Int)
      (dependencyIds : List Nat),
      (hasCircularDependency (store ++ [⟨freshId store, title, dueDate, []⟩])
          (freshId store) dependencyIds = true ∨
        ∃ nd, dueDate = some nd ∧ DueViolation store nd dependencyIds) →
      (POST store title dueDate dependencyIds).2 = store ∧
      (POST store title dueDate dependencyIds).1.isErr = true ∧
      ∃ msg, (POST store title dueDate dependencyIds).1 = PostResp.badRequest msg := by
  intro store title dueDate dependencyIds h
  by_cases ht : title.trim = ""
  · unfold POST
    rw [if_pos ht]
    exact ⟨rfl, rfl, _, rfl⟩
  · have hlen : dependencyIds.length > 0 := by
      rcases h with h | ⟨nd, hnd, dep, _, hid, _⟩
      · unfold hasCircularDependency at h
        rw [List.any_eq_true] at h
        obtain ⟨d, hd, _⟩ := h
        exact List.length_pos.mpr (List.ne_nil_of_mem hd)
      · exact List.length_pos.mpr (List.ne_nil_of_mem hid)
    unfold POST
    rw [if_neg ht]
    dsimp only
    rw [if_pos hlen]
    by_cases hc : hasCircularDependency (store ++ [⟨freshId store, title, dueDate, []⟩])
        (freshId store) dependencyIds = true
    · rw [if_pos hc]
      exact ⟨removeTodo_fresh store ⟨freshId store, title, dueDate, []⟩ rfl, rfl, _, rfl⟩
    · rw [if_neg hc]
      rcases h with h | ⟨nd, hnd, hviol⟩
      · exact absurd h hc
      · subst hnd
        dsimp only
        have hsome := find_viol_isSome
          (store ++ [(⟨freshId store, title, some nd, []⟩ : Todo)])
          (fun x hx => List.mem_append_left _ hx) hviol
        rw [Option.isSome_iff_exists] at hsome
        obtain ⟨dep, hdep⟩ := hsome
        rw [hdep]
        exact ⟨removeTodo_fresh store ⟨freshId store, title, some nd, []⟩ rfl, rfl, _, rfl⟩

theorem claim7_witness :
    (POST [⟨1, "a", some 20, []⟩] "b" (some 10) [1]).2 = [⟨1, "a", some 20, []⟩] ∧
    (POST [⟨1, "a", some 20, []⟩] "b" (some 10) [1]).1.isErr = true ∧
    ∃ msg, (POST [⟨1, "a", some 20, []⟩] "b" (some 10) [1]).1 = PostResp.badRequest msg :=
  claim7_post_rejects [⟨1, "a", some 20, []⟩] "b" (some 10) [1]
    (Or.inr ⟨10, rfl, by decide⟩)

theorem mapGet_nil {α : Type} (k : Nat) : mapGet k ([] : List (Nat × α)) = none := rfl

theorem mapGet_cons {α : Type} (x : Nat × α) (m : List (Nat × α)) (k : Nat) :
    mapGet k (x :: m) = if x.1 = k then some x.2 else mapGet k m := by
  unfold mapGet
  by_cases h : x.1 = k
  · rw [List.find?_cons_of_pos _ (by simpa using h), if_pos h]
    rfl
  · rw [List.find?_cons_of_neg _ (by simpa using h), if_neg h]

theorem mapGet_set_self {α : Type} (k : Nat) (v : α) (m : List (Nat × α)) :
    mapGet k (mapSet k v m) = some v := by
  induction m with
  | nil => simp [mapSet, mapGet_cons]
  | cons p rest ih =>
    unfold mapSet
    by_cases h : p.1 = k
    · rw [if_pos (by simpa using h)]
      simp [mapGet_cons]
    · rw [if_neg (by simpa using h)]
      rw [mapGet_cons, if_neg h]
      exact ih

theorem mapGet_set_ne {α : Type} {k k' : Nat} (v : α) (m : List (Nat × α))
    (h : k' ≠ k) : mapGet k (mapSet k' v m) = mapGet k m := by
  induction m with
  | nil => simp [mapSet, mapGet_cons, h, mapGet_nil]
  | cons p rest ih =>
    unfold mapSet
    by_cases hp : p.1 = k'
    · rw [if_pos (by simpa using hp)]
      rw [mapGet_cons, mapGet_cons, if_neg h, if_neg (hp ▸ h)]
    · rw [if_neg (by simpa using hp)]
      rw [mapGet_cons, mapGet_cons, ih]

theorem foldl_perTask_lookup_notmem (F : TodoWithDependencies → Option Int) :
    ∀ (todos : List TodoWithDependencies) (acc : List (Nat × Option Int)) (k : Nat),
      k ∉ idsOf todos →
      mapGet k (todos.foldl (fun acc todo => mapSet todo.id (F todo) acc) acc) =
        mapGet k acc := by
  intro todos
  induction todos with
  | nil => intro acc k h; rfl
  | cons hd tl ih =>
    intro acc k h
    unfold idsOf at h
    simp only [List.map_cons, List.mem_cons, not_or] at h
    rw [List.foldl_cons, ih _ k (by simpa [idsOf] using h.2),
      mapGet_set_ne _ _ (fun e => h.1 e.symm)]

theorem foldl_perTask_lookup (F : TodoWithDependencies → Option Int) :
    ∀ (todos : List TodoWithDependencies) (acc : List (Nat × Option Int))
      (t : TodoWithDependencies),
      (idsOf todos).Nodup → t ∈ todos →
      mapGet t.id (todos.foldl (fun acc todo => mapSet todo.id (F todo) acc) acc) =
        some (F t) := by
  intro todos
  induction todos with
  | nil => intro acc t _ h; simp at h
  | cons hd tl ih =>
    intro acc t hnd hmem
    have hnd2 : hd.id ∉ List.map (fun t => t.id) tl ∧
        (List.map (fun t => t.id) tl).Nodup := by
      have h0 : (List.map (fun t => t.id) (hd :: tl)).Nodup := by
        simpa [idsOf] using hnd
      rw [List.map_cons, List.nodup_cons] at h0
      exact h0
    rcases List.mem_cons.mp hmem with h | h
    · subst h
      have hnotin : t.id ∉ idsOf tl := by simpa [idsOf] using hnd2.1
      rw [List.foldl_cons, foldl_perTask_lookup_notmem F tl _ t.id hnotin, mapGet_set_self]
    · rw [List.foldl_cons]
      exact ih _ t (by simpa [idsOf] using hnd2.2) h

theorem listMaxI_spec (x : Int) (xs : List Int) :
    (listMaxI x xs = x ∨ listMaxI x xs ∈ xs) ∧ x ≤ listMaxI x xs ∧
      ∀ y ∈ xs, y ≤ listMaxI x xs := by
  induction xs generalizing x with
  | nil => exact ⟨Or.inl rfl, le_refl _, by simp⟩
  | cons hd tl ih =>
    have h1 := ih (max x hd)
    unfold listMaxI at h1 ⊢
    rw [List.foldl_cons]
    refine ⟨?_, ?_, ?_⟩
    · rcases h1.1 with h | h
      · rcases max_choice x hd with he | he
        · exact Or.inl (by rw [h, he])
        · refine Or.inr ?_
          rw [h, he]
          exact List.mem_cons_self hd tl
      · exact Or.inr (List.mem_cons_of_mem hd h)
    · exact le_trans (le_max_left x hd) h1.2.1
    · intro y hy
      rcases List.mem_cons.mp hy with h | h
      · exact le_trans (h ▸ le_max_right x hd) h1.2.1
      · exact h1.2.2 y h

/-- Value recorded by calculateEarliestStartDates for one task. -/
theorem earliest_body_eq (todo : TodoWithDependencies) (acc : List (Nat × Option Int)) :
    (match todo.dependencies.filterMap (fun dep => dep.dueDate) with
      | [] => mapSet todo.id none acc
      | d :: ds => mapSet todo.id (some (listMaxI d ds + 1)) acc) =
    mapSet todo.id
      (match todo.dependencies.filterMap (fun dep => dep.dueDate) with
        | [] => none
        | d :: ds => some (listMaxI d ds + 1)) acc := by
  cases todo.dependencies.filterMap (fun dep => dep.dueDate) with
  | nil => rfl
  | cons d ds => rfl

/-- C4: for every task of a well-keyed input, the earliest-start map has an
entry for the task; the entry is absent (null) exactly when no direct
dependency of the task carries a due date, and otherwise it is the day
immediately following the maximum due date among the direct dependencies.
The characterization quantifies over direct dependencies only, so the
computation is one level deep by construction. -/
theorem claim4_earliest_start :
    ∀ (todos : List TodoWithDependencies) (t : TodoWithDependencies),
      (idsOf todos).Nodup → t ∈ todos →
      ∃ r, mapGet t.id (calculateEarliestStartDates todos) = some r ∧
        (r = none ↔ ∀ dep ∈ t.dependencies, dep.dueDate = none) ∧
        (∀ m : Int, r = some m ↔
          (∃ dep ∈ t.dependencies, dep.dueDate = some (m - 1)) ∧
          ∀ dep ∈ t.dependencies, ∀ x, dep.dueDate = some x → x ≤ m - 1) := by
  intro todos t hnd hmem
  have hbody : calculateEarliestStartDates todos =
      todos.foldl (fun acc todo => mapSet todo.id
        (match todo.dependencies.filterMap (fun dep => dep.dueDate) with
          | [] => none
          | d :: ds => some (listMaxI d ds + 1)) acc) [] := by
    unfold calculateEarliestStartDates
    congr 1
    funext acc todo
    exact earliest_body_eq todo acc
  rw [hbody, foldl_perTask_lookup _ todos [] t hnd hmem]
  refine ⟨_, rfl, ?_, ?_⟩
  · cases hfm : t.dependencies.filterMap (fun dep => dep.dueDate) with
    | nil =>
      constructor
      · intro _ dep hdep
        cases hdd : dep.dueDate with
        | none => rfl
        | some x =>
          exfalso
          have hx : x ∈ t.dependencies.filterMap (fun dep => dep.dueDate) :=
            List.mem_filterMap.mpr ⟨dep, hdep, hdd⟩
          rw [hfm] at hx
          simp at hx
      · intro _; rfl
    | cons d ds =>
      constructor
      · intro h; exact absurd h (by simp)
      · intro h
        have hd : d ∈ t.dependencies.filterMap (fun dep => dep.dueDate) := by
          rw [hfm]; exact List.mem_cons_self d ds
        obtain ⟨dep, hdep, hdd⟩ := List.mem_filterMap.mp hd
        rw [h dep hdep] at hdd
        exact absurd hdd (by simp)
  · intro m
    cases hfm : t.dependencies.filterMap (fun dep => dep.dueDate) with
    | nil =>
      constructor
      · intro h; exact absurd h (by simp)
      · rintro ⟨⟨dep, hdep, hdd⟩, _⟩
        have hx : (m - 1) ∈ t.dependencies.filterMap (fun dep => dep.dueDate) :=
          List.mem_filterMap.mpr ⟨dep, hdep, hdd⟩
        rw [hfm] at hx
        simp at hx
    | cons d ds =>
      obtain ⟨hmem', hle, hbound⟩ := listMaxI_spec d ds
      have hmax_mem : listMaxI d ds ∈ t.dependencies.filterMap (fun dep => dep.dueDate) := by
        rw [hfm]
        rcases hmem' with h | h
        · rw [h]; exact List.mem_cons_self d ds
        · exact List.mem_cons_of_mem d h
      obtain ⟨depM, hdepM, hddM⟩ := List.mem_filterMap.mp hmax_mem
      constructor
      · intro h
        have hm : m = listMaxI d ds + 1 := by
          have := Option.some.inj h
          omega
        refine ⟨⟨depM, hdepM, by rw [hddM]; congr 1; omega⟩, ?_⟩
        intro dep hdep x hx
        have hmemx : x ∈ t.dependencies.filterMap (fun dep => dep.dueDate) :=
          List.mem_filterMap.mpr ⟨dep, hdep, hx⟩
        rw [hfm] at hmemx
        rcases List.mem_cons.mp hmemx with hh | hh
        · subst hh; omega
        · have := hbound x hh
          omega
      · rintro ⟨⟨dep, hdep, hdd⟩, hub⟩
        have h1 : (m - 1) ∈ t.dependencies.filterMap (fun dep => dep.dueDate) :=
          List.mem_filterMap.mpr ⟨dep, hdep, hdd⟩
        rw [hfm] at h1
        have h2 : m - 1 ≤ listMaxI d ds := by
          rcases List.mem_cons.mp h1 with hh | hh
          · rw [hh]; exact hle
          · exact hbound _ hh
        have h3 : listMaxI d ds ≤ m - 1 := hub depM hdepM _ hddM
        have h4 : listMaxI d ds = m - 1 := le_antisymm h3 h2
        show some (listMaxI d ds + 1) = some m
        rw [h4]
        congr 1
        omega

theorem claim4_witness :
    ∃ r, mapGet 2 (calculateEarliestStartDates
        [⟨1, some 10, []⟩, ⟨2, some 20, [⟨1, some 10⟩]⟩]) = some r ∧
      (r = none ↔ ∀ dep ∈ [(⟨1, some 10⟩ : DepTodo)], dep.dueDate = none) ∧
      (∀ m : Int, r = some m ↔
        (∃ dep ∈ [(⟨1, some 10⟩ : DepTodo)], dep.dueDate = some (m - 1)) ∧
        ∀ dep ∈ [(⟨1, some 10⟩ : DepTodo)], ∀ x, dep.dueDate = some x → x ≤ m - 1) :=
  claim4_earliest_start [⟨1, some 10, []⟩, ⟨2, some 20, [⟨1, some 10⟩]⟩]
    ⟨2, some 20, [⟨1, some 10⟩]⟩ (by decide) (by decide)

theorem mapGet_set {α : Type} (k u : Nat) (v : α) (m : List (Nat × α)) :
    mapGet u (mapSet k v m) = if k = u then some v else mapGet u m := by
  by_cases h : k = u
  · rw [if_pos h, h, mapGet_set_self]
  · rw [if_neg h, mapGet_set_ne _ _ h]

theorem mapGet_append {α : Type} (k : Nat) (l r : List (Nat × α)) :
    mapGet k (l ++ r) =
      match mapGet k l with
      | some v => some v
      | none => mapGet k r := by
  induction l with
  | nil => rw [List.nil_append]; rfl
  | cons p rest ih =>
    rw [List.cons_append, mapGet_cons, mapGet_cons]
    by_cases h : p.1 = k
    · rw [if_pos h, if_pos h]
    · rw [if_neg h, if_neg h, ih]

theorem mapSet_fresh {α : Type} (k : Nat) (v : α) (m : List (Nat × α))
    (h : mapGet k m = none) : mapSet k v m = m ++ [(k, v)] := by
  induction m with
  | nil => rfl
  | cons p rest ih =>
    rw [mapGet_cons] at h
    by_cases hp : p.1 = k
    · rw [if_pos hp] at h
      exact absurd h (by simp)
    · rw [if_neg hp] at h
      unfold mapSet
      rw [if_neg (by simpa using hp), ih h, List.cons_append]

theorem mapSet_keys {α : Type} (k : Nat) (v : α) (m : List (Nat × α))
    (h : (mapGet k m).isSome) : (mapSet k v m).map Prod.fst = m.map Prod.fst := by
  induction m with
  | nil => simp [mapGet] at h
  | cons p rest ih =>
    rw [mapGet_cons] at h
    unfold mapSet
    by_cases hp : p.1 = k
    · rw [if_pos (by simpa using hp)]
      simp [hp]
    · rw [if_neg (by simpa using hp)]
      rw [if_neg hp] at h
      simp [ih h]

theorem assoc_ext {α : Type} (f : Nat → α) :
    ∀ (m : List (Nat × α)) (ks : List Nat), m.map Prod.fst = ks → ks.Nodup →
      (∀ k ∈ ks, mapGet k m = some (f k)) → m = ks.map (fun k => (k, f k)) := by
  intro m
  induction m with
  | nil => intro ks hk _ _; rw [← hk]; rfl
  | cons p rest ih =>
    intro ks hk hnd hget
    cases ks with
    | nil => simp at hk
    | cons k0 ks' =>
      rw [List.map_cons] at hk
      have hp1 : p.1 = k0 := by
        have := congrArg (fun l => l.headI) hk
        simpa using this
      have hrest : rest.map Prod.fst = ks' := by
        have := congrArg List.tail hk
        simpa using this
      have hnd' := List.nodup_cons.mp hnd
      have hv : p.2 = f k0 := by
        have := hget k0 (List.mem_cons_self _ _)
        rw [mapGet_cons, if_pos hp1] at this
        exact Option.some.inj this
      have hrec : rest = ks'.map (fun k => (k, f k)) := by
        apply ih ks' hrest hnd'.2
        intro k hkmem
        have := hget k (List.mem_cons_of_mem _ hkmem)
        rw [mapGet_cons, if_neg] at this
        · exact this
        · rw [hp1]
          intro e
          exact hnd'.1 (e ▸ hkmem)
      rw [List.map_cons, ← hrec, ← hv, ← hp1]

theorem taskOf_mem {todos : List TodoWithDependencies} {v : Nat}
    {t : TodoWithDependencies} (h : taskOf todos v = some t) :
    t ∈ todos ∧ t.id = v := by
  unfold taskOf at h
  refine ⟨List.mem_of_find?_eq_some h, ?_⟩
  have := List.find?_some (p := fun t => t.id == v) (l := todos) (a := t) h
  simpa using this

theorem taskOf_isSome {todos : List TodoWithDependencies} {v : Nat}
    (h : v ∈ idsOf todos) : (taskOf todos v).isSome := by
  unfold taskOf
  rw [List.find?_isSome]
  unfold idsOf at h
  obtain ⟨t, ht, hid⟩ := List.mem_map.mp h
  exact ⟨t, ht, by simpa using hid⟩

theorem edgeP_mem {todos : List TodoWithDependencies} {u v : Nat}
    (h : EdgeP todos u v) : u ∈ idsOf todos ∧ v ∈ idsOf todos := by
  unfold EdgeP inNbrs at h
  cases ht : taskOf todos v with
  | none => rw [ht] at h; simp at h
  | some t =>
    rw [ht] at h
    have hmem := List.mem_filter.mp h
    refine ⟨by simpa using hmem.2, ?_⟩
    obtain ⟨htm, hid⟩ := taskOf_mem ht
    unfold idsOf
    exact hid ▸ List.mem_map_of_mem (fun t => t.id) htm

theorem inNbrs_sub_ids (todos : List TodoWithDependencies) (v : Nat) :
    ∀ u ∈ inNbrs todos v, u ∈ idsOf todos := by
  intro u hu
  exact (edgeP_mem hu).1

theorem inNbrs_nodup {todos : List TodoWithDependencies}
    (hwf : ∀ t ∈ todos, (t.dependencies.map (fun d => d.id)).Nodup) (v : Nat) :
    (inNbrs todos v).Nodup := by
  unfold inNbrs
  cases ht : taskOf todos v with
  | none => exact List.nodup_nil
  | some t => exact List.Nodup.filter _ (hwf t (taskOf_mem ht).1)

theorem edgeP_indeg_pos {todos : List TodoWithDependencies} {u v : Nat}
    (h : EdgeP todos u v) : initIndeg todos v ≠ 0 := by
  unfold initIndeg
  unfold EdgeP at h
  intro hlen
  rw [List.length_eq_zero] at hlen
  rw [hlen] at h
  simp at h

theorem filterMap_sublist_map {α β : Type} (f : α → Option β) (g : α → β)
    (h : ∀ a x, f a = some x → x = g a) :
    ∀ l : List α, (l.filterMap f).Sublist (l.map g) := by
  intro l
  induction l with
  | nil => simp
  | cons a l ih =>
    rw [List.filterMap_cons, List.map_cons]
    cases hf : f a with
    | none => exact ih.cons _
    | some x =>
      rw [h a x hf]
      exact ih.cons₂ _

theorem outList_nodup {todos : List TodoWithDependencies}
    (hnd : (idsOf todos).Nodup) (u : Nat) : (outList todos u).Nodup := by
  apply List.Nodup.sublist _ hnd
  unfold outList idsOf
  apply filterMap_sublist_map
  intro t x hx
  by_cases hc : (t.dependencies.map (fun d => d.id)).contains u
  · rw [if_pos hc] at hx
    exact (Option.some.inj hx).symm
  · rw [if_neg hc] at hx
    simp at hx

theorem id_inj {todos : List TodoWithDependencies} (hnd : (idsOf todos).Nodup)
    {t t' : TodoWithDependencies} (ht : t ∈ todos) (ht' : t' ∈ todos)
    (h : t.id = t'.id) : t = t' := by
  unfold idsOf at hnd
  exact List.inj_on_of_nodup_map hnd ht ht' h

theorem mem_outList_iff {todos : List TodoWithDependencies}
    (hnd : (idsOf todos).Nodup) {u v : Nat} (hu : u ∈ idsOf todos) :
    v ∈ outList todos u ↔ EdgeP todos u v := by
  unfold outList
  rw [List.mem_filterMap]
  constructor
  · rintro ⟨t, ht, hsome⟩
    by_cases hc : (t.dependencies.map (fun d => d.id)).contains u
    · rw [if_pos hc] at hsome
      have hv : t.id = v := Option.some.inj hsome
      unfold EdgeP inNbrs
      cases hT : taskOf todos v with
      | none =>
        exfalso
        have := taskOf_isSome (show v ∈ idsOf todos from hv ▸ List.mem_map_of_mem (fun t => t.id) ht)
        rw [hT] at this
        simp at this
      | some t' =>
        obtain ⟨ht', hid'⟩ := taskOf_mem hT
        have : t = t' := id_inj hnd ht ht' (by rw [hv, hid'])
        subst this
        rw [List.mem_filter]
        exact ⟨by simpa using hc, by simpa using hu⟩
    · rw [if_neg hc] at hsome
      simp at hsome
  · intro h
    unfold EdgeP inNbrs at h
    cases hT : taskOf todos v with
    | none => rw [hT] at h; simp at h
    | some t =>
      rw [hT] at h
      obtain ⟨ht, hid⟩ := taskOf_mem hT
      have hdep := (List.mem_filter.mp h).1
      exact ⟨t, ht, by rw [if_pos (by simpa using hdep)]; rw [hid]⟩

theorem mapGet_isSome_iff_keys {α : Type} (u : Nat) (m : List (Nat × α)) :
    (mapGet u m).isSome ↔ u ∈ m.map Prod.fst := by
  induction m with
  | nil => simp [mapGet_nil]
  | cons p rest ih =>
    rw [mapGet_cons, List.map_cons]
    by_cases h : p.1 = u
    · rw [if_pos h]
      simp [h]
    · rw [if_neg h]
      simp only [List.mem_cons]
      rw [ih]
      constructor
      · intro hm; exact Or.inr hm
      · rintro (hm | hm)
        · exact absurd hm.symm h
        · exact hm

theorem isSome_eq_of_keys {α β : Type} (m1 : List (Nat × α)) (m2 : List (Nat × β))
    (h : m1.map Prod.fst = m2.map Prod.fst) (u : Nat) :
    (mapGet u m1).isSome = (mapGet u m2).isSome := by
  have h1 := mapGet_isSome_iff_keys u m1
  have h2 := mapGet_isSome_iff_keys u m2
  rw [h] at h1
  cases hb1 : (mapGet u m1).isSome <;> cases hb2 : (mapGet u m2).isSome
  · rfl
  · exfalso; simp_all
  · exfalso; simp_all
  · rfl

theorem buildAdj_eq_pairs (todos : List TodoWithDependencies) :
    ∀ acc, buildAdj todos acc =
      (edgePairs todos).foldl (fun acc p => buildStep acc p.1 p.2) acc := by
  unfold buildAdj edgePairs
  induction todos with
  | nil => intro acc; rfl
  | cons t tl ih =>
    intro acc
    rw [List.foldl_cons, List.flatMap_cons, List.foldl_append, List.foldl_map]
    exact ih _

theorem initAdj_gen (todos : List TodoWithDependencies) :
    ∀ (acc1 : List (Nat × List Nat)) (acc2 : List (Nat × Int)),
      (idsOf todos).Nodup →
      (∀ i ∈ idsOf todos, mapGet i acc1 = none ∧ mapGet i acc2 = none) →
      todos.foldl (fun acc todo => (mapSet todo.id [] acc.1, mapSet todo.id 0 acc.2))
          (acc1, acc2) =
        (acc1 ++ (idsOf todos).map (fun i => (i, ([] : List Nat))),
         acc2 ++ (idsOf todos).map (fun i => (i, (0 : Int)))) := by
  induction todos with
  | nil => intro acc1 acc2 _ _; simp [idsOf]
  | cons t tl ih =>
    intro acc1 acc2 hnd hfresh
    have hmem : t.id ∈ idsOf (t :: tl) := by
      unfold idsOf
      exact List.mem_map_of_mem _ (List.mem_cons_self t tl)
    obtain ⟨hf1, hf2⟩ := hfresh t.id hmem
    rw [List.foldl_cons]
    have hstep : (mapSet t.id ([] : List Nat) acc1, mapSet t.id (0 : Int) acc2) =
        (acc1 ++ [(t.id, ([] : List Nat))], acc2 ++ [(t.id, (0 : Int))]) := by
      rw [mapSet_fresh _ _ _ hf1, mapSet_fresh _ _ _ hf2]
    rw [hstep]
    have hnd' : (idsOf tl).Nodup := by
      unfold idsOf at hnd ⊢
      exact (List.nodup_cons.mp (by simpa using hnd)).2
    have hnotin : t.id ∉ idsOf tl := by
      unfold idsOf at hnd ⊢
      exact (List.nodup_cons.mp (by simpa using hnd)).1
    have hfresh' : ∀ i ∈ idsOf tl,
        mapGet i (acc1 ++ [(t.id, ([] : List Nat))]) = none ∧
        mapGet i (acc2 ++ [(t.id, (0 : Int))]) = none := by
      intro i hi
      have hne : t.id ≠ i := fun e => hnotin (e ▸ hi)
      have hi2 : i ∈ idsOf (t :: tl) := by
        unfold idsOf at hi ⊢
        rw [List.map_cons]
        exact List.mem_cons_of_mem _ hi
      obtain ⟨g1, g2⟩ := hfresh i hi2
      constructor
      · rw [mapGet_append, g1, mapGet_cons, if_neg hne, mapGet_nil]
      · rw [mapGet_append, g2, mapGet_cons, if_neg hne, mapGet_nil]
    rw [ih _ _ hnd' hfresh']
    unfold idsOf
    simp [List.append_assoc]

theorem initAdj_spec (todos : List TodoWithDependencies)
    (hnd : (idsOf todos).Nodup) :
    initAdj todos = ((idsOf todos).map (fun i => (i, ([] : List Nat))),
                     (idsOf todos).map (fun i => (i, (0 : Int)))) := by
  unfold initAdj
  have h := initAdj_gen todos [] [] hnd (fun i _ => ⟨rfl, rfl⟩)
  simpa using h

theorem buildSteps_spec :
    ∀ (ps : List (Nat × Nat)) (acc : List (Nat × List Nat) × List (Nat × Int)),
      (∀ q ∈ ps, (mapGet q.1 acc.2).isSome) →
      (∀ u, mapGet u (ps.foldl (fun acc p => buildStep acc p.1 p.2) acc).1 =
        match mapGet u acc.1 with
        | none => none
        | some l => some (l ++ (ps.filter (fun p => p.2 == u)).map Prod.fst)) ∧
      (∀ v, mapGet v (ps.foldl (fun acc p => buildStep acc p.1 p.2) acc).2 =
        match mapGet v acc.2 with
        | none => none
        | some d => some (d +
            ((ps.filter (fun p => p.1 == v && (mapGet p.2 acc.1).isSome)).length : Int))) ∧
      (ps.foldl (fun acc p => buildStep acc p.1 p.2) acc).1.map Prod.fst = acc.1.map Prod.fst ∧
      (ps.foldl (fun acc p => buildStep acc p.1 p.2) acc).2.map Prod.fst = acc.2.map Prod.fst := by
  intro ps
  induction ps with
  | nil =>
    intro acc _
    refine ⟨?_, ?_, rfl, rfl⟩
    · intro u
      rw [List.foldl_nil]
      cases h : mapGet u acc.1 with
      | none => rfl
      | some l => simp
    · intro v
      rw [List.foldl_nil]
      cases h : mapGet v acc.2 with
      | none => rfl
      | some d => simp
  | cons q ps ih =>
    intro acc hp1
    have hq1 : (mapGet q.1 acc.2).isSome := hp1 q (List.mem_cons_self q ps)
    rw [List.foldl_cons]
    by_cases hg : (mapGet q.2 acc.1).isSome
    · set acc' := buildStep acc q.1 q.2 with hacc'
      have hstep : acc' = (mapSet q.2 ((mapGet q.2 acc.1).getD [] ++ [q.1]) acc.1,
          mapSet q.1 ((mapGet q.1 acc.2).getD 0 + 1) acc.2) := by
        rw [hacc']
        unfold buildStep
        rw [if_pos hg]
      have hkeys1 : acc'.1.map Prod.fst = acc.1.map Prod.fst := by
        rw [hstep]
        exact mapSet_keys _ _ _ hg
      have hkeys2 : acc'.2.map Prod.fst = acc.2.map Prod.fst := by
        rw [hstep]
        exact mapSet_keys _ _ _ hq1
      have hp1' : ∀ p ∈ ps, (mapGet p.1 acc'.2).isSome := by
        intro p hp
        rw [isSome_eq_of_keys acc'.2 acc.2 hkeys2]
        exact hp1 p (List.mem_cons_of_mem q hp)
      obtain ⟨ihA, ihB, ihK1, ihK2⟩ := ih acc' hp1'
      refine ⟨?_, ?_, by rw [ihK1, hkeys1], by rw [ihK2, hkeys2]⟩
      · intro u
        rw [ihA u]
        rw [hstep]
        rw [mapGet_set]
        by_cases hqu : q.2 = u
        · rw [if_pos hqu]
          obtain ⟨l, hl⟩ := Option.isSome_iff_exists.mp hg
          have hlu : mapGet u acc.1 = some l := by rw [← hqu]; exact hl
          rw [hl, hlu]
          rw [List.filter_cons_of_pos (by simpa using hqu), List.map_cons]
          simp [List.append_assoc]
        · rw [if_neg hqu]
          rw [List.filter_cons_of_neg (by simpa using hqu)]
      · intro v
        rw [ihB v]
        have hfcong : List.filter (fun p => p.1 == v && (mapGet p.2 acc'.1).isSome) ps =
            List.filter (fun p => p.1 == v && (mapGet p.2 acc.1).isSome) ps := by
          apply List.filter_congr
          intro p _
          rw [isSome_eq_of_keys acc'.1 acc.1 hkeys1]
        rw [hfcong]
        conv_lhs => rw [hstep]
        rw [mapGet_set]
        by_cases hqv : q.1 = v
        · rw [if_pos hqv]
          obtain ⟨d, hd⟩ := Option.isSome_iff_exists.mp hq1
          have hdv : mapGet v acc.2 = some d := by rw [← hqv]; exact hd
          rw [hd, hdv]
          rw [List.filter_cons_of_pos (by simp [hqv, hg])]
          simp only [Option.getD_some, List.length_cons]
          congr 1
          push_cast
          ring
        · rw [if_neg hqv]
          rw [List.filter_cons_of_neg (by simp [hqv])]
    · have hstep : buildStep acc q.1 q.2 = acc := by
        unfold buildStep
        rw [if_neg hg]
      rw [hstep]
      obtain ⟨ihA, ihB, ihK1, ihK2⟩ := ih acc (fun p hp => hp1 p (List.mem_cons_of_mem q hp))
      refine ⟨?_, ?_, ihK1, ihK2⟩
      · intro u
        rw [ihA u]
        cases hu : mapGet u acc.1 with
        | none => rfl
        | some l =>
          have hqu : ¬ q.2 = u := by
            intro e
            rw [e, hu] at hg
            simp at hg
          rw [List.filter_cons_of_neg (by simpa using hqu)]
      · intro v
        rw [ihB v]
        rw [List.filter_cons_of_neg (by simp [hg])]

theorem filter_beq_length_of_nodup (u : Nat) :
    ∀ l : List Nat, l.Nodup →
      (l.filter (fun x => x == u)).length = if l.contains u then 1 else 0 := by
  intro l
  induction l with
  | nil => intro _; rfl
  | cons a l ih =>
    intro hnd
    obtain ⟨hna, hnd'⟩ := List.nodup_cons.mp hnd
    by_cases ha : a = u
    · rw [List.filter_cons_of_pos (by simpa using ha)]
      have hrest : l.filter (fun x => x == u) = [] := by
        apply List.filter_eq_nil_iff.mpr
        intro x hx
        simp only [beq_iff_eq]
        intro e
        exact hna ((e.symm ▸ ha.symm) ▸ hx)
      rw [hrest]
      have : (a :: l).contains u = true := by simp [ha]
      rw [if_pos this]
      rfl
    · rw [List.filter_cons_of_neg (by simpa using ha), ih hnd']
      have : (a :: l).contains u = (l.contains u) := by
        simp only [List.contains_cons]
        rw [show (u == a) = false by simpa using fun e => ha e.symm]
        rw [Bool.false_or]
      rw [this]

theorem pairs_dependents_eq (u : Nat) :
    ∀ ts : List TodoWithDependencies,
      (∀ t ∈ ts, (t.dependencies.map (fun d => d.id)).Nodup) →
      ((ts.flatMap (fun t => t.dependencies.map (fun dep => (t.id, dep.id)))).filter
          (fun p => p.2 == u)).map Prod.fst =
        ts.filterMap
          (fun t => if (t.dependencies.map (fun d => d.id)).contains u then some t.id else none) := by
  intro ts
  induction ts with
  | nil => intro _; rfl
  | cons t tl ih =>
    intro hdeps
    rw [List.flatMap_cons, List.filter_append, List.map_append, List.filterMap_cons]
    have hpart : ((t.dependencies.map (fun dep => (t.id, dep.id))).filter
        (fun p => p.2 == u)).map Prod.fst =
        if (t.dependencies.map (fun d => d.id)).contains u then [t.id] else [] := by
      rw [List.filter_map, List.map_map]
      have hlen : (t.dependencies.filter
          ((fun p => p.2 == u) ∘ fun dep => (t.id, dep.id))).length =
          if (t.dependencies.map (fun d => d.id)).contains u then 1 else 0 := by
        have he : (t.dependencies.filter ((fun p => p.2 == u) ∘ fun dep => (t.id, dep.id))).length =
            ((t.dependencies.map (fun d => d.id)).filter (fun x => x == u)).length := by
          rw [List.filter_map]
          rw [List.length_map]
          rfl
        rw [he]
        exact filter_beq_length_of_nodup u _ (hdeps t (List.mem_cons_self t tl))
      set l := t.dependencies.filter ((fun p => p.2 == u) ∘ fun dep => (t.id, dep.id)) with hl
      by_cases hc : (t.dependencies.map (fun d => d.id)).contains u
      · rw [if_pos hc] at hlen ⊢
        obtain ⟨a, ha⟩ := List.length_eq_one.mp hlen
        rw [ha]
        rfl
      · rw [if_neg hc] at hlen ⊢
        rw [List.length_eq_zero.mp hlen]
        rfl
    rw [hpart, ih (fun t ht => hdeps t (List.mem_cons_of_mem _ ht))]
    by_cases hc : (t.dependencies.map (fun d => d.id)).contains u
    · rw [if_pos hc, if_pos hc]
      rfl
    · rw [if_neg hc, if_neg hc]
      rfl

theorem pairs_indeg_count (todos : List TodoWithDependencies) (v : Nat) :
    ∀ ts : List TodoWithDependencies,
      ((ts.flatMap (fun t => t.dependencies.map (fun dep => (t.id, dep.id)))).filter
          (fun p => p.1 == v && (idsOf todos).contains p.2)).length =
        ((ts.filter (fun t => t.id == v)).flatMap
          (fun t => (t.dependencies.map (fun d => d.id)).filter
            (fun x => (idsOf todos).contains x))).length := by
  intro ts
  induction ts with
  | nil => rfl
  | cons t tl ih =>
    rw [List.flatMap_cons, List.filter_append, List.length_append, ih]
    by_cases ht : t.id = v
    · rw [List.filter_cons_of_pos (by simpa using ht), List.flatMap_cons, List.length_append]
      congr 1
      rw [List.filter_map]
      rw [List.length_map]
      have : (t.dependencies.filter ((fun p => p.1 == v && (idsOf todos).contains p.2) ∘
          fun dep => (t.id, dep.id))).length =
          (t.dependencies.filter (fun dep => (idsOf todos).contains dep.id)).length := by
        congr 1
        apply List.filter_congr
        intro dep _
        show (t.id == v && (idsOf todos).contains dep.id) = (idsOf todos).contains dep.id
        rw [show (t.id == v) = true by simpa using ht, Bool.true_and]
      rw [this]
      rw [List.filter_map, List.length_map]
      rfl
    · rw [List.filter_cons_of_neg (by simpa using ht)]
      have hnil : (t.dependencies.map (fun dep => (t.id, dep.id))).filter
          (fun p => p.1 == v && (idsOf todos).contains p.2) = [] := by
        apply List.filter_eq_nil_iff.mpr
        intro p hp
        obtain ⟨dep, _, he⟩ := List.mem_map.mp hp
        rw [← he]
        simp [ht]
      rw [hnil]
      simp

theorem filter_id_unique {todos : List TodoWithDependencies} {v : Nat}
    {t : TodoWithDependencies} :
    (idsOf todos).Nodup → taskOf todos v = some t →
      todos.filter (fun t' => t'.id == v) = [t] := by
  induction todos with
  | nil => intro _ h; simp [taskOf] at h
  | cons hd tl ih =>
    intro hnd hT
    unfold taskOf at hT
    have hnds : hd.id ∉ idsOf tl ∧ (idsOf tl).Nodup := by
      unfold idsOf at hnd ⊢
      rw [List.map_cons, List.nodup_cons] at hnd
      exact hnd
    by_cases hhd : hd.id = v
    · rw [List.find?_cons_of_pos _ (by simpa using hhd)] at hT
      have he : hd = t := Option.some.inj hT
      rw [List.filter_cons_of_pos (by simpa using hhd)]
      have hrest : tl.filter (fun t' => t'.id == v) = [] := by
        apply List.filter_eq_nil_iff.mpr
        intro t' ht'
        simp only [beq_iff_eq]
        intro e
        apply hnds.1
        rw [hhd]
        rw [← e]
        exact List.mem_map_of_mem _ ht'
      rw [hrest, he]
    · rw [List.find?_cons_of_neg _ (by simpa using hhd)] at hT
      rw [List.filter_cons_of_neg (by simpa using hhd)]
      exact ih hnds.2 hT

theorem mapGet_map_key {α : Type} (f : Nat → α) :
    ∀ (ks : List Nat) (u : Nat),
      mapGet u (ks.map (fun k => (k, f k))) = if u ∈ ks then some (f u) else none := by
  intro ks
  induction ks with
  | nil => intro u; simp [mapGet_nil]
  | cons k ks ih =>
    intro u
    rw [List.map_cons, mapGet_cons]
    by_cases h : k = u
    · subst h
      rw [if_pos rfl, if_pos (List.mem_cons_self k ks)]
    · rw [if_neg h, ih u]
      by_cases hm : u ∈ ks
      · rw [if_pos hm, if_pos (List.mem_cons_of_mem k hm)]
      · rw [if_neg hm, if_neg (by
          intro hc
          rcases List.mem_cons.mp hc with hc | hc
          · exact h hc.symm
          · exact hm hc)]

theorem seedQueue_gen (f : Nat → Int) :
    ∀ (ks : List Nat) (acc : List Nat × List (Nat × Int) × List (Nat × Option Nat)),
      ks.Nodup →
      (∀ k ∈ ks, mapGet k acc.2.1 = none ∧ mapGet k acc.2.2 = none) →
      (ks.map (fun k => (k, f k))).foldl
        (fun acc kv => if kv.2 = 0 then
            (acc.1 ++ [kv.1], mapSet kv.1 0 acc.2.1, mapSet kv.1 none acc.2.2)
          else acc) acc =
      (acc.1 ++ (ks.filter (fun k => f k == 0)),
       acc.2.1 ++ (ks.filter (fun k => f k == 0)).map (fun k => (k, (0 : Int))),
       acc.2.2 ++ (ks.filter (fun k => f k == 0)).map (fun k => (k, (none : Option Nat)))) := by
  intro ks
  induction ks with
  | nil => intro acc _ _; simp
  | cons k ks ih =>
    intro acc hnd hfresh
    obtain ⟨hnk, hnd'⟩ := List.nodup_cons.mp hnd
    obtain ⟨hf1, hf2⟩ := hfresh k (List.mem_cons_self k ks)
    rw [List.map_cons, List.foldl_cons]
    by_cases hz : f k = 0
    · rw [if_pos hz]
      have hset1 : mapSet k (0 : Int) acc.2.1 = acc.2.1 ++ [(k, (0 : Int))] :=
        mapSet_fresh _ _ _ hf1
      have hset2 : mapSet k (none : Option Nat) acc.2.2 = acc.2.2 ++ [(k, (none : Option Nat))] :=
        mapSet_fresh _ _ _ hf2
      rw [hset1, hset2]
      have hfresh' : ∀ k' ∈ ks,
          mapGet k' (acc.2.1 ++ [(k, (0 : Int))]) = none ∧
          mapGet k' (acc.2.2 ++ [(k, (none : Option Nat))]) = none := by
        intro k' hk'
        have hne : k ≠ k' := fun e => hnk (e ▸ hk')
        obtain ⟨g1, g2⟩ := hfresh k' (List.mem_cons_of_mem k hk')
        constructor
        · rw [mapGet_append, g1, mapGet_cons, if_neg hne, mapGet_nil]
        · rw [mapGet_append, g2, mapGet_cons, if_neg hne, mapGet_nil]
      rw [ih _ hnd' hfresh']
      rw [List.filter_cons_of_pos (by simpa using hz), List.map_cons, List.map_cons]
      simp [List.append_assoc]
    · rw [if_neg hz]
      rw [ih _ hnd' (fun k' hk' => hfresh k' (List.mem_cons_of_mem k hk'))]
      rw [List.filter_cons_of_neg (by simpa using hz)]

theorem seedQueue_spec (todos : List TodoWithDependencies)
    (hnd : (idsOf todos).Nodup) :
    seedQueue ((idsOf todos).map (fun v => (v, (initIndeg todos v : Int)))) =
      (rootsOf todos,
       (rootsOf todos).map (fun k => (k, (0 : Int))),
       (rootsOf todos).map (fun k => (k, (none : Option Nat)))) := by
  unfold seedQueue
  rw [seedQueue_gen (fun v => (initIndeg todos v : Int)) (idsOf todos) ([], [], []) hnd
    (fun k _ => ⟨rfl, rfl⟩)]
  have hf : (idsOf todos).filter (fun k => ((initIndeg todos k : Int) == 0)) = rootsOf todos := by
    unfold rootsOf
    apply List.filter_congr
    intro k _
    show ((initIndeg todos k : Int) == 0) = (initIndeg todos k == 0)
    by_cases h : initIndeg todos k = 0
    · rw [h]
      rfl
    · have h1 : ((initIndeg todos k : Int) == 0) = false := by
        simpa using fun e => h (Int.natCast_eq_zero.mp e)
      have h2 : (initIndeg todos k == 0) = false := by simpa using h
      rw [h1, h2]
  rw [hf]
  simp

theorem analyzer_setup (todos : List TodoWithDependencies)
    (hnd : (idsOf todos).Nodup)
    (hdeps : ∀ t ∈ todos, (t.dependencies.map (fun d => d.id)).Nodup) :
    (∀ u ∈ idsOf todos,
      mapGet u (buildAdj todos (initAdj todos)).1 = some (outList todos u)) ∧
    (∀ u, (mapGet u (buildAdj todos (initAdj todos)).1).isSome ↔ u ∈ idsOf todos) ∧
    (buildAdj todos (initAdj todos)).2 =
      (idsOf todos).map (fun v => (v, (initIndeg todos v : Int))) := by
  have hB : buildAdj todos (initAdj todos) =
      (edgePairs todos).foldl (fun acc p => buildStep acc p.1 p.2)
        ((idsOf todos).map (fun i => (i, ([] : List Nat))),
         (idsOf todos).map (fun i => (i, (0 : Int)))) := by
    rw [buildAdj_eq_pairs todos (initAdj todos), initAdj_spec todos hnd]
  have hkeysA1 : ((idsOf todos).map (fun i => (i, ([] : List Nat)))).map Prod.fst = idsOf todos := by
    rw [List.map_map]
    have h : (Prod.fst ∘ fun i => (i, ([] : List Nat))) = fun i : Nat => i := rfl
    rw [h]
    exact List.map_id' _
  have hkeysA2 : ((idsOf todos).map (fun i => (i, (0 : Int)))).map Prod.fst = idsOf todos := by
    rw [List.map_map]
    have h : (Prod.fst ∘ fun i => (i, (0 : Int))) = fun i : Nat => i := rfl
    rw [h]
    exact List.map_id' _
  have hp1 : ∀ q ∈ edgePairs todos,
      (mapGet q.1 ((idsOf todos).map (fun i => (i, ([] : List Nat))),
        (idsOf todos).map (fun i => (i, (0 : Int)))).2).isSome := by
    intro q hq
    obtain ⟨t, ht, hq2⟩ := List.mem_flatMap.mp hq
    obtain ⟨dep, _, he⟩ := List.mem_map.mp hq2
    have hq1 : q.1 = t.id := by rw [← he]
    rw [mapGet_isSome_iff_keys, hkeysA2, hq1]
    exact List.mem_map_of_mem _ ht
  obtain ⟨sA, sB, sK1, sK2⟩ := buildSteps_spec (edgePairs todos)
    ((idsOf todos).map (fun i => (i, ([] : List Nat))),
     (idsOf todos).map (fun i => (i, (0 : Int)))) hp1
  refine ⟨?_, ?_, ?_⟩
  · intro u hu
    rw [hB, sA u]
    rw [show mapGet u ((idsOf todos).map (fun i => (i, ([] : List Nat))),
        (idsOf todos).map (fun i => (i, (0 : Int)))).1 = some [] by
      rw [mapGet_map_key (fun i => ([] : List Nat)) (idsOf todos) u, if_pos hu]]
    have hout : outList todos u =
        List.map Prod.fst (List.filter (fun p => p.2 == u) (edgePairs todos)) := by
      unfold edgePairs
      rw [pairs_dependents_eq u todos hdeps]
      rfl
    rw [hout]
    simp
  · intro u
    rw [hB, mapGet_isSome_iff_keys, sK1, hkeysA1]
  · rw [hB]
    apply assoc_ext (fun v => (initIndeg todos v : Int)) _ (idsOf todos) (by rw [sK2, hkeysA2]) hnd
    intro v hv
    rw [sB v]
    rw [show mapGet v ((idsOf todos).map (fun i => (i, ([] : List Nat))),
        (idsOf todos).map (fun i => (i, (0 : Int)))).2 = some 0 by
      rw [mapGet_map_key (fun i => (0 : Int)) (idsOf todos) v, if_pos hv]]
    have hcong : List.filter (fun p => p.1 == v &&
        (mapGet p.2 ((idsOf todos).map (fun i => (i, ([] : List Nat))),
          (idsOf todos).map (fun i => (i, (0 : Int)))).1).isSome) (edgePairs todos) =
        List.filter (fun p => p.1 == v && (idsOf todos).contains p.2) (edgePairs todos) := by
      apply List.filter_congr
      intro p _
      have : (mapGet p.2 ((idsOf todos).map (fun i => (i, ([] : List Nat))))).isSome =
          (idsOf todos).contains p.2 := by
        rw [mapGet_map_key (fun i => ([] : List Nat)) (idsOf todos) p.2]
        by_cases hm : p.2 ∈ idsOf todos
        · rw [if_pos hm]
          simpa using hm
        · rw [if_neg hm]
          simpa using hm
      rw [this]
    rw [hcong]
    unfold edgePairs
    rw [pairs_indeg_count todos v todos]
    obtain ⟨t, hT⟩ := Option.isSome_iff_exists.mp (taskOf_isSome hv)
    rw [filter_id_unique hnd hT]
    have : ([t].flatMap (fun t => (t.dependencies.map (fun d => d.id)).filter
        (fun x => (idsOf todos).contains x))).length = initIndeg todos v := by
      unfold initIndeg inNbrs
      rw [hT]
      simp
    rw [this]
    show some ((0 : Int) + (initIndeg todos v : Int)) = some ((initIndeg todos v : Int))
    rw [zero_add]

theorem mem_rootsOf {todos : List TodoWithDependencies} {v : Nat} :
    v ∈ rootsOf todos ↔ v ∈ idsOf todos ∧ initIndeg todos v = 0 := by
  unfold rootsOf
  rw [List.mem_filter]
  constructor
  · rintro ⟨h1, h2⟩
    exact ⟨h1, by simpa using h2⟩
  · rintro ⟨h1, h2⟩
    exact ⟨h1, by simpa using h2⟩

theorem kahnInv_init (todos : List TodoWithDependencies)
    (hnd : (idsOf todos).Nodup)
    (hdeps : ∀ t ∈ todos, (t.dependencies.map (fun d => d.id)).Nodup) :
    KahnInv todos
      { queue := rootsOf todos,
        levels := (rootsOf todos).map (fun k => (k, (0 : Int))),
        parent := (rootsOf todos).map (fun k => (k, (none : Option Nat))),
        inDegree := (idsOf todos).map (fun v => (v, (initIndeg todos v : Int))) }
      [] := by
  have hrootlev : ∀ v, mapGet v ((rootsOf todos).map (fun k => (k, (0 : Int)))) =
      if v ∈ rootsOf todos then some 0 else none :=
    fun v => mapGet_map_key (fun k => (0 : Int)) (rootsOf todos) v
  have hrootpar : ∀ v, mapGet v ((rootsOf todos).map (fun k => (k, (none : Option Nat)))) =
      if v ∈ rootsOf todos then some none else none :=
    fun v => mapGet_map_key (fun k => (none : Option Nat)) (rootsOf todos) v
  have hindeg : ∀ v, mapGet v ((idsOf todos).map (fun v => (v, (initIndeg todos v : Int)))) =
      if v ∈ idsOf todos then some ((initIndeg todos v : Int)) else none :=
    fun v => mapGet_map_key (fun v => (initIndeg todos v : Int)) (idsOf todos) v
  refine ⟨?_, ?_, ?_, ?_, ?_, ?_, ?_, ?_, ?_, ?_, ?_, ?_, ?_, ?_, ?_, ?_, ?_⟩
  · intro v
    rw [hrootlev v]
    by_cases hm : v ∈ rootsOf todos
    · rw [if_pos hm]
      simpa using mem_rootsOf.mp hm
    · rw [if_neg hm]
      simp only [Option.isSome_none, Bool.false_eq_true, false_iff]
      rintro (h | ⟨u, hu, _⟩)
      · exact hm (mem_rootsOf.mpr h)
      · simp at hu
  · intro v h
    rw [hrootlev v] at h
    rw [hrootpar v]
    by_cases hm : v ∈ rootsOf todos
    · rw [if_pos hm]; rfl
    · rw [if_neg hm] at h; simp at h
  · simp only [List.nil_append]
    unfold rootsOf
    exact List.Nodup.filter _ hnd
  · intro v hv
    simp only [List.nil_append] at hv
    exact (mem_rootsOf.mp hv).1
  · intro v
    rw [hindeg v]
    by_cases hm : v ∈ idsOf todos
    · rw [if_pos hm]; simpa using hm
    · rw [if_neg hm]; simpa using hm
  · intro v hv
    rw [hindeg v, if_pos hv]
    have hf : (inNbrs todos v).filter (fun u => decide (u ∈ ([] : List Nat))) = [] := by
      apply List.filter_eq_nil_iff.mpr
      intro u _
      simp
    rw [hf]
    simp
  · intro v hv u hedge
    exfalso
    exact edgeP_indeg_pos hedge (mem_rootsOf.mp hv).2
  · intro i h
    simp at h
  · intro v hv hall
    simp only [List.nil_append]
    have hnil : inNbrs todos v = [] := by
      cases he : inNbrs todos v with
      | nil => rfl
      | cons a l =>
        exfalso
        have : EdgeP todos a v := by
          unfold EdgeP
          rw [he]
          exact List.mem_cons_self a l
        have := hall a this
        simp at this
    rw [mem_rootsOf]
    refine ⟨hv, ?_⟩
    unfold initIndeg
    rw [hnil]
    rfl
  · intro v hv h0
    have hm : v ∈ rootsOf todos := mem_rootsOf.mpr ⟨hv, h0⟩
    rw [hrootlev v, if_pos hm, hrootpar v, if_pos hm]
    exact ⟨rfl, rfl⟩
  · intro v L h
    rw [hrootlev v] at h
    by_cases hm : v ∈ rootsOf todos
    · rw [if_pos hm] at h
      have hL : L = 0 := (Option.some.inj h).symm
      subst hL
      refine ⟨le_refl _, ?_⟩
      intro hne
      exact absurd (mem_rootsOf.mp hm).2 hne
    · rw [if_neg hm] at h; simp at h
  · intro v L h
    rw [hrootlev v] at h
    by_cases hm : v ∈ rootsOf todos
    · rw [if_pos hm] at h
      have hL : L = 0 := (Option.some.inj h).symm
      subst hL
      refine ⟨[v], ⟨by simp, by simp, List.chain'_singleton v, ?_⟩, by simp⟩
      intro x hx
      rw [List.mem_singleton.mp hx]
      exact (mem_rootsOf.mp hm).1
    · rw [if_neg hm] at h; simp at h
  · intro u hu
    simp at hu
  · intro v L h
    rw [hrootlev v] at h
    by_cases hm : v ∈ rootsOf todos
    · rw [if_pos hm] at h
      have hL : L = 0 := (Option.some.inj h).symm
      subst hL
      simp
    · rw [if_neg hm] at h; simp at h
  · intro i h
    simp at h
  · intro v hv
    simp only [List.nil_append] at hv
    rw [hrootlev v, if_pos hv]
    rfl
  · intro v pv h
    rw [hrootpar v] at h
    by_cases hm : v ∈ rootsOf todos
    · rw [if_pos hm] at h
      have hpv : pv = none := (Option.some.inj h).symm
      subst hpv
      refine ⟨fun _ => mem_rootsOf.mp hm, ?_⟩
      intro u hu
      exact absurd hu (by simp)
    · rw [if_neg hm] at h; simp at h

theorem get_concat_self {α : Type} (l : List α) (a : α)
    (h : l.length < (l ++ [a]).length) : (l ++ [a]).get ⟨l.length, h⟩ = a := by
  rw [List.get_eq_getElem]
  exact List.getElem_concat_length l a l.length rfl h

theorem get_append_left_nat {α : Type} (l : List α) (a : α) (i : Nat)
    (hi : i < l.length) (h : i < (l ++ [a]).length) :
    (l ++ [a]).get ⟨i, h⟩ = l.get ⟨i, hi⟩ := by
  rw [List.get_eq_getElem, List.get_eq_getElem]
  exact List.getElem_append_left hi

theorem kahnMid_start {todos : List TodoWithDependencies} {s0 : LoopState}
    {p0 : List Nat} {current : Nat} {rest : List Nat}
    (inv : KahnInv todos s0 p0) (hq : s0.queue = current :: rest) :
    KahnMid todos current ((mapGet current s0.levels).getD 0) p0 []
      { s0 with queue := rest } := by
  have hcurq : current ∈ s0.queue := by rw [hq]; exact List.mem_cons_self current rest
  have hcurpq : current ∈ p0 ++ s0.queue := List.mem_append_right p0 hcurq
  obtain ⟨cl, hcl⟩ := Option.isSome_iff_exists.mp (inv.pqLev current hcurpq)
  have hclD : (mapGet current s0.levels).getD 0 = cl := by rw [hcl]; rfl
  have hndq : ((p0 ++ [current]) ++ rest).Nodup := by
    have h0 := inv.nodupPQ
    rw [hq, List.append_cons] at h0
    exact h0
  have hdisj : current ∉ p0 := by
    intro hc
    have h0 := inv.nodupPQ
    have := List.disjoint_of_nodup_append h0
    exact this hc hcurq
  have hclLe : cl ≤ (p0.length : Int) := inv.levBound current cl hcl
  rw [hclD]
  refine ⟨?_, inv.levToPar, hndq, ?_, inv.indegKeys, ?_, ?_, ?_, ?_, inv.levRoot,
    inv.levPos, inv.levChain, inv.levRelax, ?_, ?_, ?_, ?_, ?_, hcl, hclLe, ?_⟩
  · intro v
    rw [inv.keysLev v]
    constructor
    · rintro (h | h)
      · exact Or.inl h
      · exact Or.inr (Or.inl h)
    · rintro (h | h | h)
      · exact Or.inl h
      · exact Or.inr h
      · simp at h
  · intro v hv
    apply inv.memPQ
    rw [hq, List.append_cons]
    exact hv
  · intro v hv
    rw [inv.indegVal v hv]
    simp
  · intro v hv
    simp only at hv
    constructor
    · intro u hu
      apply List.mem_append_left
      apply inv.queueReady v _ u hu
      rw [hq]
      exact List.mem_cons_of_mem current hv
    · intro hedge
      exfalso
      apply hdisj
      apply inv.queueReady v _ current hedge
      rw [hq]
      exact List.mem_cons_of_mem current hv
  · intro i h u hu
    rw [List.length_append, List.length_singleton] at h
    by_cases hi : i < p0.length
    · rw [get_append_left_nat p0 current i hi] at hu
      have := inv.procOrd i hi u hu
      rw [List.take_append_of_le_length (le_of_lt hi)]
      exact this
    · have hieq : i = p0.length := by omega
      subst hieq
      rw [get_concat_self] at hu
      have hup0 : u ∈ p0 := inv.queueReady current hcurq u hu
      rw [List.take_append_of_le_length (le_refl _)]
      rw [List.take_length]
      exact hup0
  · intro v hv hall
    have h0 : v ∈ p0 ++ s0.queue := by
      apply inv.complete v hv
      intro u hu
      rcases hall u hu with h | ⟨_, hfalse⟩
      · exact h
      · simp at hfalse
    rw [hq, List.append_cons] at h0
    exact h0
  · intro v hv
    simp at hv
  · intro v L h
    have := inv.levBound v L h
    omega
  · intro i h
    rw [List.length_append, List.length_singleton] at h
    by_cases hi : i < p0.length
    · rw [get_append_left_nat p0 current i hi]
      exact inv.procIdx i hi
    · have hieq : i = p0.length := by omega
      subst hieq
      rw [get_concat_self]
      exact ⟨cl, hcl, hclLe⟩
  · intro v hv
    apply inv.pqLev
    rw [hq, List.append_cons]
    exact hv
  · intro v pv h
    obtain ⟨h1, h2⟩ := inv.parSpec v pv h
    refine ⟨h1, ?_⟩
    intro u hu
    obtain ⟨he, hup, hrest⟩ := h2 u hu
    exact ⟨he, List.mem_append_left _ hup, hrest⟩
  · intro v hv
    simp at hv

theorem jsLevel_none : jsLevel none = -1 := rfl

theorem jsLevel_some_pos {l : Int} (h : 1 ≤ l) : jsLevel (some l) = l := by
  simp only [jsLevel]
  rw [if_neg (by omega)]

theorem relaxOne_spec (current : Nat) (curLev : Int) (s : LoopState) (q : Nat)
    (E : Int) (hE : jsLevel (mapGet q s.levels) = E)
    (D : Int) (hD : mapGet q s.inDegree = some D) :
    relaxOne current curLev s q =
      if curLev + 1 > E then
        { queue := if D - 1 = 0 then s.queue ++ [q] else s.queue,
          levels := mapSet q (curLev + 1) s.levels,
          parent := mapSet q (some current) s.parent,
          inDegree := mapSet q (D - 1) s.inDegree }
      else
        { queue := if D - 1 = 0 then s.queue ++ [q] else s.queue,
          levels := s.levels, parent := s.parent,
          inDegree := mapSet q (D - 1) s.inDegree } := by
  simp only [relaxOne]
  rw [hE]
  by_cases hc : curLev + 1 > E
  · simp only [if_pos hc]
    rw [hD]
    dsimp only [Option.getD_some]
    by_cases hdz : D - 1 = 0
    · simp only [if_pos hdz]
    · simp only [if_neg hdz]
  · simp only [if_neg hc]
    rw [hD]
    dsimp only [Option.getD_some]
    by_cases hdz : D - 1 = 0
    · simp only [if_pos hdz]
    · simp only [if_neg hdz]

theorem length_filter_split {α : Type} (l : List α) (f : α → Bool) :
    (l.filter f).length + (l.filter (fun x => !f x)).length = l.length := by
  induction l with
  | nil => rfl
  | cons a t ih =>
    by_cases h : f a = true
    · rw [List.filter_cons_of_pos h, List.filter_cons_of_neg (by simp [h])]
      simp only [List.length_cons]
      omega
    · rw [List.filter_cons_of_neg (by simp [h]), List.filter_cons_of_pos (by simp [h])]
      simp only [List.length_cons]
      omega

theorem nodup_all_eq_le_one {α : Type} {l : List α} {a : α} (hnd : l.Nodup)
    (h : ∀ x ∈ l, x = a) : l.length ≤ 1 := by
  cases l with
  | nil => simp
  | cons b t =>
    cases t with
    | nil => simp
    | cons c u =>
      exfalso
      rw [List.nodup_cons] at hnd
      apply hnd.1
      have hb : b = a := h b (List.mem_cons_self _ _)
      have hc : c = a := h c (List.mem_cons_of_mem _ (List.mem_cons_self _ _))
      rw [hb, hc]
      exact List.mem_cons_self _ _

theorem indeg_count_zero_iff {todos : List TodoWithDependencies} {current q : Nat}
    (hdeps : ∀ t ∈ todos, (t.dependencies.map (fun d => d.id)).Nodup)
    (hq : EdgeP todos current q) {p0 : List Nat} (hcp0 : current ∉ p0) :
    ((initIndeg todos q : Int) -
      ((inNbrs todos q).filter (fun u => decide (u ∈ p0))).length - 1 = 0) ↔
    (∀ u ∈ inNbrs todos q, u ∈ p0 ∨ u = current) := by
  have hndl : (inNbrs todos q).Nodup := inNbrs_nodup hdeps q
  have hcl : current ∈ inNbrs todos q := hq
  have hsplit := length_filter_split (inNbrs todos q) (fun u => decide (u ∈ p0))
  have hcur_neg : current ∈ (inNbrs todos q).filter (fun u => !decide (u ∈ p0)) :=
    List.mem_filter.mpr ⟨hcl, by simp [hcp0]⟩
  have hinit : initIndeg todos q = (inNbrs todos q).length := rfl
  constructor
  · intro hz u hu
    have hneg1 : ((inNbrs todos q).filter (fun u => !decide (u ∈ p0))).length = 1 := by
      omega
    obtain ⟨b, hb⟩ := List.length_eq_one.mp hneg1
    have hbc : b = current := by
      rw [hb] at hcur_neg
      exact (List.mem_singleton.mp hcur_neg).symm
    by_cases hup : u ∈ p0
    · exact Or.inl hup
    · right
      have : u ∈ (inNbrs todos q).filter (fun u => !decide (u ∈ p0)) :=
        List.mem_filter.mpr ⟨hu, by simp [hup]⟩
      rw [hb, hbc] at this
      exact List.mem_singleton.mp this
  · intro hall
    have hle : ((inNbrs todos q).filter (fun u => !decide (u ∈ p0))).length ≤ 1 := by
      apply nodup_all_eq_le_one (hndl.filter _)
      intro x hx
      have hx' := List.mem_filter.mp hx
      have hxp : x ∉ p0 := by
        have := hx'.2
        simp at this
        exact this
      rcases hall x hx'.1 with h | h
      · exact absurd h hxp
      · exact h
    have hge : 1 ≤ ((inNbrs todos q).filter (fun u => !decide (u ∈ p0))).length :=
      List.length_pos.mpr (List.ne_nil_of_mem hcur_neg)
    omega

theorem kahnMid_step_core {todos : List TodoWithDependencies} {current q : Nat}
    {curLev Lq : Int} {p0 done : List Nat} {s sn : LoopState}
    (hdeps : ∀ t ∈ todos, (t.dependencies.map (fun d => d.id)).Nodup)
    (mid : KahnMid todos current curLev p0 done s)
    (hq : EdgeP todos current q) (hqd : q ∉ done)
    (hlevNe : ∀ v, ¬ v = q → mapGet v sn.levels = mapGet v s.levels)
    (hparNe : ∀ v, ¬ v = q → mapGet v sn.parent = mapGet v s.parent)
    (hLq : mapGet q sn.levels = some Lq)
    (hLqLow : curLev + 1 ≤ Lq)
    (hLqMono : ∀ L0, mapGet q s.levels = some L0 → L0 ≤ Lq)
    (hLqCase : Lq = curLev + 1 ∨ mapGet q s.levels = some Lq)
    (hparQ : (mapGet q sn.parent = some (some current) ∧ Lq = curLev + 1) ∨
      (mapGet q sn.parent = mapGet q s.parent ∧ mapGet q s.levels = some Lq))
    (hdeg : sn.inDegree = mapSet q ((initIndeg todos q : Int) -
      ((inNbrs todos q).filter (fun u => decide (u ∈ p0))).length - 1) s.inDegree)
    (hqueue : sn.queue = if (initIndeg todos q : Int) -
      ((inNbrs todos q).filter (fun u => decide (u ∈ p0))).length - 1 = 0
      then s.queue ++ [q] else s.queue) :
    KahnMid todos current curLev p0 (done ++ [q]) sn := by
  have hq_ids : q ∈ idsOf todos := (edgeP_mem hq).2
  have hq_nr : initIndeg todos q ≠ 0 := edgeP_indeg_pos hq
  have hnd_pc : (p0 ++ [current]).Nodup := List.Nodup.of_append_left mid.nodupPQ
  have hcp0 : current ∉ p0 := by
    intro hmem
    exact List.disjoint_of_nodup_append hnd_pc hmem (List.mem_singleton_self current)
  have hq_notp : q ∉ p0 ++ [current] := by
    intro hmem
    obtain ⟨⟨i, hi⟩, hget⟩ := List.mem_iff_get.mp hmem
    have hintake := mid.procOrd i hi current (by rw [hget]; exact hq)
    have hile : i ≤ p0.length := by
      have h2 := hi
      simp only [List.length_append, List.length_singleton] at h2
      omega
    rw [List.take_append_of_le_length hile] at hintake
    exact hcp0 (List.take_subset i p0 hintake)
  have hq_np0 : q ∉ p0 := fun h => hq_notp (List.mem_append_left _ h)
  have hq_ne_cur : ¬ q = current := by
    intro h
    apply hq_notp
    rw [h]
    exact List.mem_append_right _ (List.mem_singleton_self current)
  have hq_nq : q ∉ s.queue := fun h => hqd ((mid.queueReady q h).2 hq)
  have hcl0 : 0 ≤ curLev := (mid.levPos current curLev mid.curLevEq).1
  have hcount := indeg_count_zero_iff hdeps hq hcp0
  have hmemQ : ∀ v ∈ sn.queue, v ∈ s.queue ∨ v = q := by
    intro v hv
    rw [hqueue] at hv
    by_cases hz : (initIndeg todos q : Int) -
        ((inNbrs todos q).filter (fun u => decide (u ∈ p0))).length - 1 = 0
    · rw [if_pos hz] at hv
      rcases List.mem_append.mp hv with h | h
      · exact Or.inl h
      · exact Or.inr (List.mem_singleton.mp h)
    · rw [if_neg hz] at hv
      exact Or.inl hv
  have hQsub : ∀ w ∈ s.queue, w ∈ sn.queue := by
    intro w hw
    rw [hqueue]
    by_cases hz : (initIndeg todos q : Int) -
        ((inNbrs todos q).filter (fun u => decide (u ∈ p0))).length - 1 = 0
    · rw [if_pos hz]
      exact List.mem_append_left _ hw
    · rw [if_neg hz]
      exact hw
  refine ⟨?_, ?_, ?_, ?_, ?_, ?_, ?_, ?_, ?_, ?_, ?_, ?_, ?_, ?_, ?_, ?_, ?_, ?_, ?_, ?_, ?_⟩
  · -- keysLev
    intro v
    by_cases hveq : v = q
    · subst hveq
      refine ⟨fun _ => Or.inr (Or.inr (List.mem_append_right done (List.mem_singleton_self v))),
        fun _ => by rw [hLq]; simp⟩
    · rw [hlevNe v hveq, mid.keysLev v]
      constructor
      · rintro (h | h | h)
        · exact Or.inl h
        · exact Or.inr (Or.inl h)
        · exact Or.inr (Or.inr (List.mem_append_left _ h))
      · rintro (h | h | h)
        · exact Or.inl h
        · exact Or.inr (Or.inl h)
        · rcases List.mem_append.mp h with h2 | h2
          · exact Or.inr (Or.inr h2)
          · exact absurd (List.mem_singleton.mp h2) hveq
  · -- levToPar
    intro v hs
    by_cases hveq : v = q
    · subst hveq
      rcases hparQ with ⟨hp, _⟩ | ⟨hp, holdlev⟩
      · rw [hp]; simp
      · rw [hp]
        exact mid.levToPar v (by rw [holdlev]; simp)
    · rw [hparNe v hveq]
      exact mid.levToPar v (by rw [← hlevNe v hveq]; exact hs)
  · -- nodupPQ
    rw [hqueue]
    by_cases hz : (initIndeg todos q : Int) -
        ((inNbrs todos q).filter (fun u => decide (u ∈ p0))).length - 1 = 0
    · rw [if_pos hz, ← List.append_assoc, List.nodup_append]
      refine ⟨mid.nodupPQ, List.nodup_singleton q, ?_⟩
      intro a ha ha2
      rw [List.mem_singleton] at ha2
      subst ha2
      rcases List.mem_append.mp ha with h | h
      · exact hq_notp h
      · exact hq_nq h
    · rw [if_neg hz]
      exact mid.nodupPQ
  · -- memPQ
    intro v hv
    rcases List.mem_append.mp hv with h | h
    · exact mid.memPQ v (List.mem_append_left _ h)
    · rcases hmemQ v h with h2 | h2
      · exact mid.memPQ v (List.mem_append_right _ h2)
      · subst h2; exact hq_ids
  · -- indegKeys
    intro v
    rw [hdeg]
    by_cases hveq : v = q
    · subst hveq
      rw [mapGet_set_self]
      simp [hq_ids]
    · rw [mapGet_set_ne _ _ (Ne.symm hveq)]
      exact mid.indegKeys v
  · -- indegVal
    intro v hv
    rw [hdeg]
    by_cases hveq : v = q
    · subst hveq
      rw [mapGet_set_self,
        if_pos (List.mem_append_right done (List.mem_singleton_self v))]
    · rw [mapGet_set_ne _ _ (Ne.symm hveq), mid.indegVal v hv]
      have hif : (if v ∈ done ++ [q] then (1 : Int) else 0) =
          if v ∈ done then 1 else 0 := by
        by_cases hd : v ∈ done
        · rw [if_pos hd, if_pos (List.mem_append_left _ hd)]
        · rw [if_neg hd, if_neg ?_]
          intro hm
          rcases List.mem_append.mp hm with h | h
          · exact hd h
          · exact hveq (List.mem_singleton.mp h)
      rw [hif]
  · -- queueReady
    intro v hv
    rw [hqueue] at hv
    by_cases hz : (initIndeg todos q : Int) -
        ((inNbrs todos q).filter (fun u => decide (u ∈ p0))).length - 1 = 0
    · rw [if_pos hz] at hv
      rcases List.mem_append.mp hv with h | h
      · have hold := mid.queueReady v h
        exact ⟨hold.1, fun he => List.mem_append_left _ (hold.2 he)⟩
      · have hvq := List.mem_singleton.mp h
        subst hvq
        have hall := hcount.mp hz
        refine ⟨?_, fun _ => List.mem_append_right _ (List.mem_singleton_self _)⟩
        intro u hu
        rcases hall u hu with h2 | h2
        · exact List.mem_append_left _ h2
        · rw [h2]
          exact List.mem_append_right _ (List.mem_singleton_self current)
    · rw [if_neg hz] at hv
      have hold := mid.queueReady v hv
      exact ⟨hold.1, fun he => List.mem_append_left _ (hold.2 he)⟩
  · -- procOrd
    exact mid.procOrd
  · -- complete
    intro v hv hprem
    by_cases hveq : v = q
    · subst hveq
      have hall : ∀ u ∈ inNbrs todos v, u ∈ p0 ∨ u = current := by
        intro u hu
        rcases hprem u hu with h | ⟨h, _⟩
        · exact Or.inl h
        · exact Or.inr h
      have hz := hcount.mpr hall
      rw [hqueue, if_pos hz]
      exact List.mem_append_right _ (List.mem_append_right _ (List.mem_singleton_self v))
    · have hold : v ∈ (p0 ++ [current]) ++ s.queue := by
        apply mid.complete v hv
        intro u hu
        rcases hprem u hu with h | ⟨h1, h2⟩
        · exact Or.inl h
        · refine Or.inr ⟨h1, ?_⟩
          rcases List.mem_append.mp h2 with h3 | h3
          · exact h3
          · exact absurd (List.mem_singleton.mp h3) hveq
      rcases List.mem_append.mp hold with h | h
      · exact List.mem_append_left _ h
      · exact List.mem_append_right _ (hQsub v h)
  · -- levRoot
    intro v hv hroot
    by_cases hveq : v = q
    · subst hveq
      exact absurd hroot hq_nr
    · rw [hlevNe v hveq, hparNe v hveq]
      exact mid.levRoot v hv hroot
  · -- levPos
    intro v L hL
    by_cases hveq : v = q
    · subst hveq
      rw [hLq] at hL
      have hLL := Option.some.inj hL
      exact ⟨by omega, fun _ => by omega⟩
    · rw [hlevNe v hveq] at hL
      exact mid.levPos v L hL
  · -- levChain
    intro v L hL
    by_cases hveq : v = q
    · subst hveq
      rw [hLq] at hL
      have hLL := Option.some.inj hL
      rcases hLqCase with hcase | hcase
      · obtain ⟨c, hc, hclen⟩ := mid.levChain current curLev mid.curLevEq
        obtain ⟨hne, hlast, hchain, hmem⟩ := hc
        refine ⟨c ++ [v], ⟨by simp, ?_, ?_, ?_⟩, ?_⟩
        · rw [List.getLast?_concat]
        · apply List.Chain'.append hchain (List.chain'_singleton v)
          intro x hx y hy
          rw [hlast] at hx
          have hxc : current = x := by simpa using hx
          have hyq : v = y := by simpa using hy
          rw [← hxc, ← hyq]
          exact hq
        · intro x hx
          rcases List.mem_append.mp hx with h | h
          · exact hmem x h
          · rw [List.mem_singleton.mp h]
            exact hq_ids
        · rw [List.length_append, List.length_singleton]
          push_cast
          omega
      · have hch := mid.levChain v Lq hcase
        rw [← hLL]
        exact hch
    · rw [hlevNe v hveq] at hL
      exact mid.levChain v L hL
  · -- levRelax
    intro u hu v he
    have huq : ¬ u = q := fun h => hq_np0 (h ▸ hu)
    by_cases hveq : v = q
    · subst hveq
      obtain ⟨L, Lu, hvL, huL, hle⟩ := mid.levRelax u hu v he
      refine ⟨Lq, Lu, hLq, ?_, ?_⟩
      · rw [hlevNe u huq]
        exact huL
      · have := hLqMono L hvL
        omega
    · obtain ⟨L, Lu, hvL, huL, hle⟩ := mid.levRelax u hu v he
      refine ⟨L, Lu, ?_, ?_, hle⟩
      · rw [hlevNe v hveq]
        exact hvL
      · rw [hlevNe u huq]
        exact huL
  · -- relaxDone
    intro v hv
    rcases List.mem_append.mp hv with h | h
    · have hvq : ¬ v = q := fun he => hqd (he ▸ h)
      obtain ⟨L, hL, hle⟩ := mid.relaxDone v h
      exact ⟨L, by rw [hlevNe v hvq]; exact hL, hle⟩
    · rw [List.mem_singleton.mp h]
      exact ⟨Lq, hLq, hLqLow⟩
  · -- levBound
    intro v L hL
    by_cases hveq : v = q
    · subst hveq
      rw [hLq] at hL
      have hLL := Option.some.inj hL
      rcases hLqCase with hcase | hcase
      · have := mid.curLevLe
        omega
      · have := mid.levBound v Lq hcase
        omega
    · rw [hlevNe v hveq] at hL
      exact mid.levBound v L hL
  · -- procIdx
    intro i h
    have hne : ¬ (p0 ++ [current]).get ⟨i, h⟩ = q := by
      intro he
      apply hq_notp
      rw [← he]
      exact List.get_mem _ _ _
    obtain ⟨L, hL, hle⟩ := mid.procIdx i h
    exact ⟨L, by rw [hlevNe _ hne]; exact hL, hle⟩
  · -- pqLev
    intro v hv
    by_cases hveq : v = q
    · subst hveq
      rw [hLq]
      simp
    · rw [hlevNe v hveq]
      apply mid.pqLev
      rcases List.mem_append.mp hv with h | h
      · exact List.mem_append_left _ h
      · rcases hmemQ v h with h2 | h2
        · exact List.mem_append_right _ h2
        · exact absurd h2 hveq
  · -- parSpec
    intro v pv hpv
    by_cases hveq : v = q
    · subst hveq
      rcases hparQ with ⟨hp, hLqc⟩ | ⟨hp, holdlev⟩
      · rw [hp] at hpv
        have hpveq := Option.some.inj hpv
        constructor
        · intro hnone
          rw [← hpveq] at hnone
          exact absurd hnone (by simp)
        · intro u hu
          rw [← hpveq] at hu
          have hcu := Option.some.inj hu
          subst hcu
          refine ⟨hq, List.mem_append_right _ (List.mem_singleton_self _), Lq, curLev,
            hLq, ?_, hLqc⟩
          rw [hlevNe _ (fun h => hq_ne_cur h.symm)]
          exact mid.curLevEq
      · rw [hp] at hpv
        have hold := mid.parSpec v pv hpv
        refine ⟨hold.1, ?_⟩
        intro u hu
        obtain ⟨he, hmem, L, Lu, hvL, huL, heq⟩ := hold.2 u hu
        have hunq : ¬ u = v := fun h2 => hq_notp (h2 ▸ hmem)
        have hLLq : L = Lq := by
          rw [hvL] at holdlev
          exact Option.some.inj holdlev
        refine ⟨he, hmem, Lq, Lu, hLq, ?_, ?_⟩
        · rw [hlevNe u hunq]
          exact huL
        · omega
    · rw [hparNe v hveq] at hpv
      have hold := mid.parSpec v pv hpv
      refine ⟨hold.1, ?_⟩
      intro u hu
      obtain ⟨he, hmem, L, Lu, hvL, huL, heq⟩ := hold.2 u hu
      have hunq : ¬ u = q := fun h2 => hq_notp (h2 ▸ hmem)
      refine ⟨he, hmem, L, Lu, ?_, ?_, heq⟩
      · rw [hlevNe v hveq]
        exact hvL
      · rw [hlevNe u hunq]
        exact huL
  · -- curLevEq
    rw [hlevNe current (fun h => hq_ne_cur h.symm)]
    exact mid.curLevEq
  · -- curLevLe
    exact mid.curLevLe
  · -- doneSub
    intro v hv
    rcases List.mem_append.mp hv with h | h
    · exact mid.doneSub v h
    · rw [List.mem_singleton.mp h]
      exact hq

theorem kahnMid_step {todos : List TodoWithDependencies} {current q : Nat}
    {curLev : Int} {p0 done : List Nat} {s : LoopState}
    (hdeps : ∀ t ∈ todos, (t.dependencies.map (fun d => d.id)).Nodup)
    (mid : KahnMid todos current curLev p0 done s)
    (hq : EdgeP todos current q) (hqd : q ∉ done) :
    KahnMid todos current curLev p0 (done ++ [q]) (relaxOne current curLev s q) := by
  have hq_ids : q ∈ idsOf todos := (edgeP_mem hq).2
  have hq_nr : initIndeg todos q ≠ 0 := edgeP_indeg_pos hq
  have hcl0 : 0 ≤ curLev := (mid.levPos current curLev mid.curLevEq).1
  have hDval0 := mid.indegVal q hq_ids
  rw [if_neg hqd, sub_zero] at hDval0
  cases hql : mapGet q s.levels with
  | none =>
    have hE : jsLevel (mapGet q s.levels) = -1 := by rw [hql]; rfl
    have hs2 := relaxOne_spec current curLev s q (-1) hE _ hDval0
    rw [if_pos (by omega : curLev + 1 > (-1 : Int))] at hs2
    rw [hs2]
    exact @kahnMid_step_core todos current q curLev (curLev + 1) p0 done s _ hdeps mid hq hqd
      (fun v hv => mapGet_set_ne _ _ (Ne.symm hv))
      (fun v hv => mapGet_set_ne _ _ (Ne.symm hv))
      (mapGet_set_self _ _ _)
      (by omega)
      (fun L0 hL0 => by rw [hql] at hL0; exact Option.noConfusion hL0)
      (Or.inl rfl)
      (Or.inl ⟨mapGet_set_self _ _ _, rfl⟩)
      rfl rfl
  | some L =>
    have hL1 : 1 ≤ L := (mid.levPos q L hql).2 hq_nr
    have hE : jsLevel (mapGet q s.levels) = L := by rw [hql]; exact jsLevel_some_pos hL1
    have hs2 := relaxOne_spec current curLev s q L hE _ hDval0
    by_cases hrel : curLev + 1 > L
    · rw [if_pos hrel] at hs2
      rw [hs2]
      exact @kahnMid_step_core todos current q curLev (curLev + 1) p0 done s _ hdeps mid hq hqd
        (fun v hv => mapGet_set_ne _ _ (Ne.symm hv))
        (fun v hv => mapGet_set_ne _ _ (Ne.symm hv))
        (mapGet_set_self _ _ _)
        (by omega)
        (fun L0 hL0 => by
          rw [hql] at hL0
          have hLL := Option.some.inj hL0
          omega)
        (Or.inl rfl)
        (Or.inl ⟨mapGet_set_self _ _ _, rfl⟩)
        rfl rfl
    · rw [if_neg hrel] at hs2
      rw [hs2]
      exact @kahnMid_step_core todos current q curLev L p0 done s _ hdeps mid hq hqd
        (fun v hv => rfl)
        (fun v hv => rfl)
        hql
        (by omega)
        (fun L0 hL0 => by
          rw [hql] at hL0
          have hLL := Option.some.inj hL0
          omega)
        (Or.inr hql)
        (Or.inr ⟨rfl, hql⟩)
        rfl rfl

theorem filter_or_eq_length (p0 : List Nat) (a : Nat) (ha : a ∉ p0) :
    ∀ l : List Nat, l.Nodup →
      (l.filter (fun x => decide (x ∈ p0 ++ [a]))).length =
        (l.filter (fun x => decide (x ∈ p0))).length + (if a ∈ l then 1 else 0) := by
  intro l hnd
  induction l with
  | nil => simp
  | cons b t ih =>
    rw [List.nodup_cons] at hnd
    have iht := ih hnd.2
    by_cases hb : b = a
    · subst hb
      rw [List.filter_cons_of_pos (by simp), List.filter_cons_of_neg (by simp [ha]),
        if_pos (List.mem_cons_self _ _), List.length_cons, iht, if_neg hnd.1]
    · have hbiff : (b ∈ p0 ++ [a]) ↔ b ∈ p0 := by
        rw [List.mem_append, List.mem_singleton]
        constructor
        · rintro (h | h)
          · exact h
          · exact absurd h hb
        · exact Or.inl
      have haiff : (a ∈ b :: t) ↔ a ∈ t := by
        rw [List.mem_cons]
        constructor
        · rintro (h | h)
          · exact absurd h.symm hb
          · exact h
        · exact Or.inr
      rw [if_congr haiff rfl rfl]
      by_cases hbp : b ∈ p0
      · rw [List.filter_cons_of_pos (by simp [hbiff, hbp]),
          List.filter_cons_of_pos (by simp [hbp]), List.length_cons, List.length_cons, iht]
        omega
      · rw [List.filter_cons_of_neg (by simp [hbiff, hbp]),
          List.filter_cons_of_neg (by simp [hbp]), iht]

theorem kahnMid_finish {todos : List TodoWithDependencies} {current : Nat}
    {curLev : Int} {p0 : List Nat} {s : LoopState}
    (hnd : (idsOf todos).Nodup)
    (hdeps : ∀ t ∈ todos, (t.dependencies.map (fun d => d.id)).Nodup)
    (mid : KahnMid todos current curLev p0 (outList todos current) s) :
    KahnInv todos s (p0 ++ [current]) := by
  have hcur_ids : current ∈ idsOf todos :=
    mid.memPQ current (List.mem_append_left _
      (List.mem_append_right _ (List.mem_singleton_self current)))
  have hdone_iff : ∀ v, v ∈ outList todos current ↔ EdgeP todos current v :=
    fun v => mem_outList_iff hnd hcur_ids
  have hnd_pc : (p0 ++ [current]).Nodup := List.Nodup.of_append_left mid.nodupPQ
  have hcp0 : current ∉ p0 := by
    intro hmem
    exact List.disjoint_of_nodup_append hnd_pc hmem (List.mem_singleton_self current)
  refine ⟨?_, mid.levToPar, mid.nodupPQ, mid.memPQ, mid.indegKeys, ?_, ?_, mid.procOrd,
    ?_, mid.levRoot, mid.levPos, mid.levChain, ?_, ?_, mid.procIdx, mid.pqLev, ?_⟩
  · -- keysLev
    intro v
    rw [mid.keysLev v]
    constructor
    · rintro (h | ⟨u, hu, he⟩ | h)
      · exact Or.inl h
      · exact Or.inr ⟨u, List.mem_append_left _ hu, he⟩
      · exact Or.inr ⟨current, List.mem_append_right _ (List.mem_singleton_self _),
          (hdone_iff v).mp h⟩
    · rintro (h | ⟨u, hu, he⟩)
      · exact Or.inl h
      · rcases List.mem_append.mp hu with h2 | h2
        · exact Or.inr (Or.inl ⟨u, h2, he⟩)
        · rw [List.mem_singleton.mp h2] at he
          exact Or.inr (Or.inr ((hdone_iff v).mpr he))
  · -- indegVal
    intro v hv
    rw [mid.indegVal v hv]
    have hcnt := filter_or_eq_length p0 current hcp0 (inNbrs todos v) (inNbrs_nodup hdeps v)
    have hif : (if current ∈ inNbrs todos v then (1 : Nat) else 0) =
        (if v ∈ outList todos current then 1 else 0) := by
      by_cases hc : current ∈ inNbrs todos v
      · rw [if_pos hc, if_pos ((hdone_iff v).mpr hc)]
      · rw [if_neg hc, if_neg (fun h => hc ((hdone_iff v).mp h))]
    rw [hif] at hcnt
    rw [hcnt]
    push_cast
    by_cases hd : v ∈ outList todos current
    · rw [if_pos hd]
      congr 1
      ring
    · rw [if_neg hd]
      congr 1
      ring
  · -- queueReady
    intro v hv
    exact (mid.queueReady v hv).1
  · -- complete
    intro v hv hprem
    apply mid.complete v hv
    intro u hu
    rcases List.mem_append.mp (hprem u hu) with h | h
    · exact Or.inl h
    · rw [List.mem_singleton.mp h] at hu
      exact Or.inr ⟨List.mem_singleton.mp h, (hdone_iff v).mpr hu⟩
  · -- levRelax
    intro u hu v he
    rcases List.mem_append.mp hu with h | h
    · exact mid.levRelax u h v he
    · rw [List.mem_singleton.mp h] at he
      obtain ⟨L, hL, hle⟩ := mid.relaxDone v ((hdone_iff v).mpr he)
      refine ⟨L, curLev, hL, ?_, hle⟩
      rw [List.mem_singleton.mp h]
      exact mid.curLevEq
  · -- levBound
    intro v L hL
    have := mid.levBound v L hL
    rw [List.length_append, List.length_singleton]
    push_cast
    omega
  · -- parSpec
    exact mid.parSpec

theorem kahnMid_foldAux {todos : List TodoWithDependencies} {current : Nat}
    {curLev : Int} {p0 : List Nat}
    (hdeps : ∀ t ∈ todos, (t.dependencies.map (fun d => d.id)).Nodup) :
    ∀ (ds done : List Nat) (s : LoopState),
      KahnMid todos current curLev p0 done s →
      (∀ q ∈ ds, EdgeP todos current q) →
      (done ++ ds).Nodup →
      KahnMid todos current curLev p0 (done ++ ds)
        (ds.foldl (relaxOne current curLev) s) := by
  intro ds
  induction ds with
  | nil =>
    intro done s mid _ _
    simpa using mid
  | cons q rest ih =>
    intro done s mid hall hnd2
    have hqd : q ∉ done := by
      intro h
      exact List.disjoint_of_nodup_append hnd2 h (List.mem_cons_self _ _)
    have step := kahnMid_step hdeps mid (hall q (List.mem_cons_self _ _)) hqd
    have hnd3 : ((done ++ [q]) ++ rest).Nodup := by
      rw [List.append_assoc, List.singleton_append]
      exact hnd2
    have hfold := ih (done ++ [q]) _ step
      (fun r hr => hall r (List.mem_cons_of_mem _ hr)) hnd3
    rw [List.append_assoc, List.singleton_append] at hfold
    rw [List.foldl_cons]
    exact hfold

theorem kahnInv_iter {todos : List TodoWithDependencies}
    (hnd : (idsOf todos).Nodup)
    (hdeps : ∀ t ∈ todos, (t.dependencies.map (fun d => d.id)).Nodup)
    {s : LoopState} {p : List Nat} {current : Nat} {rest : List Nat}
    (inv : KahnInv todos s p) (hq : s.queue = current :: rest) :
    KahnInv todos
      (((mapGet current (buildAdj todos (initAdj todos)).1).getD []).foldl
        (relaxOne current ((mapGet current s.levels).getD 0)) { s with queue := rest })
      (p ++ [current]) := by
  have hcur_ids : current ∈ idsOf todos :=
    inv.memPQ current (List.mem_append_right _ (by rw [hq]; exact List.mem_cons_self _ _))
  have hdep_eq : mapGet current (buildAdj todos (initAdj todos)).1 =
      some (outList todos current) := (analyzer_setup todos hnd hdeps).1 current hcur_ids
  rw [hdep_eq]
  have mid0 := kahnMid_start inv hq
  have hfold := kahnMid_foldAux hdeps (outList todos current) [] _ mid0
    (fun q hq2 => (mem_outList_iff hnd hcur_ids).mp hq2)
    (by rw [List.nil_append]; exact outList_nodup hnd current)
  rw [List.nil_append] at hfold
  exact kahnMid_finish hnd hdeps hfold

theorem nodup_sub_length {p l : List Nat} (hnd : p.Nodup) (hsub : ∀ v ∈ p, v ∈ l) :
    p.length ≤ l.length := by
  calc p.length = p.toFinset.card := (List.toFinset_card_of_nodup hnd).symm
    _ ≤ l.toFinset.card := Finset.card_le_card
        (fun x hx => List.mem_toFinset.mpr (hsub x (List.mem_toFinset.mp hx)))
    _ ≤ l.length := List.toFinset_card_le l

theorem runLoopTrace_inv {todos : List TodoWithDependencies}
    (hnd : (idsOf todos).Nodup)
    (hdeps : ∀ t ∈ todos, (t.dependencies.map (fun d => d.id)).Nodup) :
    ∀ (fuel : Nat) (s : LoopState) (p : List Nat),
      KahnInv todos s p →
      (idsOf todos).length < p.length + fuel →
      ∃ s2 p2, runLoopTrace (buildAdj todos (initAdj todos)).1 fuel s p = (s2, p2) ∧
        KahnInv todos s2 p2 ∧ s2.queue = [] ∧ ∃ tail, p2 = p ++ tail := by
  intro fuel
  induction fuel with
  | zero =>
    intro s p inv hbound
    exfalso
    have hple : p.length ≤ (idsOf todos).length :=
      nodup_sub_length (List.Nodup.of_append_left inv.nodupPQ)
        (fun v hv => inv.memPQ v (List.mem_append_left _ hv))
    omega
  | succ fuel ih =>
    intro s p inv hbound
    cases hq : s.queue with
    | nil =>
      refine ⟨s, p, ?_, inv, hq, [], by simp⟩
      unfold runLoopTrace
      rw [hq]
    | cons current rest =>
      have inv2 := kahnInv_iter hnd hdeps inv hq
      obtain ⟨s2, p2, hrun, hinv2, hq2, tail, htail⟩ :=
        ih _ (p ++ [current]) inv2
          (by rw [List.length_append, List.length_singleton]; omega)
      refine ⟨s2, p2, ?_, hinv2, hq2, [current] ++ tail, ?_⟩
      · unfold runLoopTrace
        rw [hq]
        exact hrun
      · rw [htail, List.append_assoc]

theorem runLoopTrace_fst (d : List (Nat × List Nat)) :
    ∀ (fuel : Nat) (s : LoopState) (p : List Nat),
      (runLoopTrace d fuel s p).1 = runLoop d fuel s := by
  intro fuel
  induction fuel with
  | zero => intro s p; rfl
  | succ fuel ih =>
    intro s p
    unfold runLoopTrace runLoop
    cases hq : s.queue with
    | nil => rfl
    | cons current rest =>
      exact ih _ _

theorem criticalPathTrace_inv (todos : List TodoWithDependencies)
    (hnd : (idsOf todos).Nodup)
    (hdeps : ∀ t ∈ todos, (t.dependencies.map (fun d => d.id)).Nodup) :
    KahnInv todos (criticalPathTrace todos).1 (criticalPathTrace todos).2 ∧
      (criticalPathTrace todos).1.queue = [] := by
  have hsetup := analyzer_setup todos hnd hdeps
  have hinit := kahnInv_init todos hnd hdeps
  have hlen : (idsOf todos).length = todos.length := List.length_map _ _
  obtain ⟨s2, p2, hrun, hinv, hq, _⟩ := runLoopTrace_inv hnd hdeps (todos.length + 1)
    { queue := rootsOf todos,
      levels := (rootsOf todos).map (fun k => (k, (0 : Int))),
      parent := (rootsOf todos).map (fun k => (k, (none : Option Nat))),
      inDegree := (idsOf todos).map (fun v => (v, (initIndeg todos v : Int))) }
    [] hinit (by simp only [List.length_nil]; omega)
  have heq : criticalPathTrace todos = (s2, p2) := by
    simp only [criticalPathTrace]
    rw [hsetup.2.2, seedQueue_spec todos hnd]
    exact hrun
  rw [heq]
  exact ⟨hinv, hq⟩

theorem calculateCriticalPath_eq_trace (todos : List TodoWithDependencies)
    (h : ¬ todos.length = 0) :
    calculateCriticalPath todos =
      { criticalPath := buildPath (criticalPathTrace todos).1.parent (todos.length + 1)
          (findMax (criticalPathTrace todos).1.levels).2,
        pathLength := (findMax (criticalPathTrace todos).1.levels).1 + 1,
        nodeLevels := (criticalPathTrace todos).1.levels } := by
  simp only [calculateCriticalPath, criticalPathTrace]
  rw [if_neg h, runLoopTrace_fst]

theorem mapGet_mem {α : Type} {k : Nat} {x : α} {m : List (Nat × α)}
    (h : mapGet k m = some x) : (k, x) ∈ m := by
  unfold mapGet at h
  cases hf : m.find? (fun p => p.1 == k) with
  | none => rw [hf] at h; exact Option.noConfusion h
  | some kv =>
    rw [hf] at h
    have hkv := List.mem_of_find?_eq_some hf
    have hkey : kv.1 = k := by
      have := List.find?_some hf
      simpa using this
    have hval : kv.2 = x := Option.some.inj h
    have : kv = (k, x) := Prod.ext hkey hval
    rw [← this]
    exact hkv

theorem mem_mapGet_of_nodup {α : Type} {k : Nat} {x : α} {m : List (Nat × α)}
    (hnd : (m.map Prod.fst).Nodup) (h : (k, x) ∈ m) : mapGet k m = some x := by
  induction m with
  | nil => simp at h
  | cons kv rest ih =>
    rw [List.map_cons, List.nodup_cons] at hnd
    rcases List.mem_cons.mp h with h2 | h2
    · rw [← h2]
      unfold mapGet
      rw [List.find?_cons_of_pos _ (by simp)]
      rfl
    · have hkne : ¬ kv.1 = k := by
        intro he
        apply hnd.1
        rw [he]
        exact List.mem_map.mpr ⟨(k, x), h2, rfl⟩
      unfold mapGet
      rw [List.find?_cons_of_neg _ (by simpa using hkne)]
      exact ih hnd.2 h2

theorem relaxOne_levels (c : Nat) (cl : Int) (s : LoopState) (q : Nat) :
    (relaxOne c cl s q).levels = mapSet q (cl + 1) s.levels ∨
      (relaxOne c cl s q).levels = s.levels := by
  simp only [relaxOne]
  by_cases h1 : cl + 1 > jsLevel (mapGet q s.levels)
  · rw [if_pos h1]
    left
    split <;> rfl
  · rw [if_neg h1]
    right
    split <;> rfl

theorem relaxOne_parent (c : Nat) (cl : Int) (s : LoopState) (q : Nat) :
    (relaxOne c cl s q).parent = mapSet q (some c) s.parent ∨
      (relaxOne c cl s q).parent = s.parent := by
  simp only [relaxOne]
  by_cases h1 : cl + 1 > jsLevel (mapGet q s.levels)
  · rw [if_pos h1]
    left
    split <;> rfl
  · rw [if_neg h1]
    right
    split <;> rfl

theorem mapSet_keys_nodup {α : Type} (k : Nat) (v : α) (m : List (Nat × α))
    (h : (m.map Prod.fst).Nodup) : ((mapSet k v m).map Prod.fst).Nodup := by
  cases hg : mapGet k m with
  | none =>
    rw [mapSet_fresh k v m hg, List.map_append]
    rw [List.nodup_append]
    refine ⟨h, by simp, ?_⟩
    intro a ha ha2
    simp at ha2
    rw [ha2] at ha
    have hs : (mapGet k m).isSome := (mapGet_isSome_iff_keys k m).mpr ha
    rw [hg] at hs
    simp at hs
  | some x =>
    rw [mapSet_keys k v m (by rw [hg]; rfl)]
    exact h

theorem foldl_relax_levels_nodup (c : Nat) (cl : Int) :
    ∀ (ds : List Nat) (s : LoopState), (s.levels.map Prod.fst).Nodup →
      (((ds.foldl (relaxOne c cl) s).levels).map Prod.fst).Nodup := by
  intro ds
  induction ds with
  | nil => intro s h; exact h
  | cons q rest ih =>
    intro s h
    rw [List.foldl_cons]
    apply ih
    rcases relaxOne_levels c cl s q with h2 | h2
    · rw [h2]
      exact mapSet_keys_nodup _ _ _ h
    · rw [h2]
      exact h

theorem runLoop_levels_nodup (d : List (Nat × List Nat)) :
    ∀ (fuel : Nat) (s : LoopState), (s.levels.map Prod.fst).Nodup →
      (((runLoop d fuel s).levels).map Prod.fst).Nodup := by
  intro fuel
  induction fuel with
  | zero => intro s h; exact h
  | succ fuel ih =>
    intro s h
    unfold runLoop
    cases hq : s.queue with
    | nil => exact h
    | cons current rest =>
      exact ih _ (foldl_relax_levels_nodup _ _ _ _ h)

theorem rootsOf_nodup {todos : List TodoWithDependencies}
    (hnd : (idsOf todos).Nodup) : (rootsOf todos).Nodup := by
  unfold rootsOf
  exact hnd.filter _

theorem criticalPathTrace_levels_nodup (todos : List TodoWithDependencies)
    (hnd : (idsOf todos).Nodup)
    (hdeps : ∀ t ∈ todos, (t.dependencies.map (fun d => d.id)).Nodup) :
    (((criticalPathTrace todos).1.levels).map Prod.fst).Nodup := by
  simp only [criticalPathTrace]
  rw [runLoopTrace_fst]
  apply runLoop_levels_nodup
  rw [(analyzer_setup todos hnd hdeps).2.2, seedQueue_spec todos hnd]
  show ((((rootsOf todos).map (fun k => (k, (0 : Int)))).map Prod.fst)).Nodup
  have hcomp : (Prod.fst ∘ fun k : Nat => (k, (0 : Int))) = fun k : Nat => k := rfl
  rw [List.map_map, hcomp, List.map_id']
  exact rootsOf_nodup hnd

theorem take_closed_transGen {todos : List TodoWithDependencies} {p : List Nat}
    (hord : ∀ i, (h : i < p.length) → ∀ u, EdgeP todos u (p.get ⟨i, h⟩) → u ∈ p.take i) :
    ∀ i, (h : i < p.length) → ∀ u,
      Relation.TransGen (EdgeP todos) u (p.get ⟨i, h⟩) → u ∈ p.take i := by
  intro i
  induction i using Nat.strong_induction_on with
  | _ i ih =>
    intro h u htg
    obtain ⟨y, hry, hy⟩ := Relation.TransGen.tail'_iff.mp htg
    have hyi : y ∈ p.take i := hord i h y hy
    rcases Relation.reflTransGen_iff_eq_or_transGen.mp hry with heq | htg2
    · rw [heq] at hyi
      exact hyi
    · rw [List.mem_take_iff_getElem] at hyi
      obtain ⟨j, hj, hje⟩ := hyi
      have hjp : j < p.length := lt_of_lt_of_le hj (min_le_right _ _)
      have hji : j < i := lt_of_lt_of_le hj (min_le_left _ _)
      have hu : u ∈ p.take j := by
        apply ih j hji hjp u
        rw [List.get_eq_getElem, hje]
        exact htg2
      rw [List.mem_take_iff_getElem] at hu ⊢
      obtain ⟨a, hal, hae⟩ := hu
      exact ⟨a, by omega, hae⟩

theorem processed_no_cycle {todos : List TodoWithDependencies} {p : List Nat}
    (hnd : p.Nodup)
    (hord : ∀ i, (h : i < p.length) → ∀ u, EdgeP todos u (p.get ⟨i, h⟩) → u ∈ p.take i) :
    ∀ v ∈ p, ¬ Relation.TransGen (EdgeP todos) v v := by
  intro v hv htg
  obtain ⟨⟨i, hi⟩, hget⟩ := List.mem_iff_get.mp hv
  have hcl : v ∈ p.take i := by
    apply take_closed_transGen hord i hi v
    rw [hget]
    exact htg
  rw [List.mem_take_iff_getElem] at hcl
  obtain ⟨j, hj, hje⟩ := hcl
  have hjp : j < p.length := lt_of_lt_of_le hj (min_le_right _ _)
  have hji : j < i := lt_of_lt_of_le hj (min_le_left _ _)
  have hfin : (⟨j, hjp⟩ : Fin p.length) = ⟨i, hi⟩ := by
    apply hnd.get_inj_iff.mp
    rw [List.get_eq_getElem, hje, hget]
  have : j = i := by
    have := Fin.mk.injEq j hjp i hi ▸ congrArg Fin.val hfin
    simpa using this
  omega

theorem acyclic_all_processed {todos : List TodoWithDependencies} {s : LoopState} {p : List Nat}
    (inv : KahnInv todos s p) (hqe : s.queue = []) (hacy : AcyclicP todos) :
    ∀ v ∈ idsOf todos, v ∈ p := by
  intro v0 hv0
  by_contra hv0p
  have hstep : ∀ v, v ∈ idsOf todos → v ∉ p →
      ∃ u, (u ∈ idsOf todos ∧ u ∉ p) ∧ EdgeP todos u v := by
    intro v hv hvp
    by_contra hno
    push_neg at hno
    have hall : ∀ u, EdgeP todos u v → u ∈ p := by
      intro u hu
      by_contra hup
      exact hno u ⟨(edgeP_mem hu).1, hup⟩ hu
    have hcomp := inv.complete v hv hall
    rw [hqe, List.append_nil] at hcomp
    exact hvp hcomp
  have hSf : ∀ x : {x : Nat // x ∈ idsOf todos ∧ x ∉ p},
      ∃ u : {x : Nat // x ∈ idsOf todos ∧ x ∉ p}, EdgeP todos u.val x.val := by
    intro x
    obtain ⟨u, hu1, hu2⟩ := hstep x.val x.2.1 x.2.2
    exact ⟨⟨u, hu1⟩, hu2⟩
  choose f hf using hSf
  haveI hfin : Finite {x : Nat // x ∈ idsOf todos ∧ x ∉ p} := by
    have hsf : (setOf (fun x : Nat => x ∈ idsOf todos ∧ x ∉ p)).Finite := by
      apply Set.Finite.subset (List.finite_toSet (idsOf todos))
      intro x hx
      exact hx.1
    exact hsf.to_subtype
  obtain ⟨m, n, hmn, heq⟩ :=
    Finite.exists_ne_map_eq_of_infinite (fun k => f^[k] ⟨v0, hv0, hv0p⟩)
  have hedge : ∀ k, EdgeP todos (f^[k + 1] ⟨v0, hv0, hv0p⟩).val (f^[k] ⟨v0, hv0, hv0p⟩).val := by
    intro k
    have hit : f^[k + 1] ⟨v0, hv0, hv0p⟩ = f (f^[k] ⟨v0, hv0, hv0p⟩) :=
      Function.iterate_succ_apply' f k _
    rw [hit]
    exact hf _
  have htrans : ∀ a b, a < b → Relation.TransGen (EdgeP todos)
      (f^[b] ⟨v0, hv0, hv0p⟩).val (f^[a] ⟨v0, hv0, hv0p⟩).val := by
    intro a b hab
    induction b with
    | zero => omega
    | succ b ih =>
      by_cases hb : a = b
      · rw [hb]
        exact Relation.TransGen.single (hedge b)
      · exact Relation.TransGen.head (hedge b) (ih (by omega))
  have heq2 : f^[m] ⟨v0, hv0, hv0p⟩ = f^[n] ⟨v0, hv0, hv0p⟩ := heq
  rcases Nat.lt_or_ge m n with h | h
  · have ht := htrans m n h
    rw [heq2] at ht
    exact hacy _ ht
  · have ht := htrans n m (by omega)
    rw [heq2] at ht
    exact hacy _ ht

theorem chain_le_level {todos : List TodoWithDependencies} {s : LoopState} {p : List Nat}
    (inv : KahnInv todos s p) (hall : ∀ v ∈ idsOf todos, v ∈ p) :
    ∀ (c : List Nat) (v : Nat) (L : Int), ChainTo todos v c →
      mapGet v s.levels = some L → (c.length : Int) ≤ L + 1 := by
  intro c
  induction c using List.reverseRecOn with
  | nil =>
    intro v L hc _
    exact absurd rfl hc.1
  | append_singleton c2 last ih =>
    intro v L hc hL
    obtain ⟨hne, hlast, hchain, hmem⟩ := hc
    rw [List.getLast?_concat] at hlast
    have hlv : last = v := Option.some.inj hlast
    subst hlv
    cases hc2 : c2 with
    | nil =>
      have h0 := (inv.levPos last L hL).1
      subst hc2
      simp only [List.nil_append, List.length_singleton]
      omega
    | cons a t =>
      have hc2ne : c2 ≠ [] := by rw [hc2]; exact List.cons_ne_nil a t
      obtain ⟨u, hu⟩ := Option.isSome_iff_exists.mp
        (by rw [List.getLast?_isSome]; exact hc2ne)
      have hsplit := List.chain'_append.mp hchain
      have hedge : EdgeP todos u last := hsplit.2.2 u hu last rfl
      have hu_mem : u ∈ c2 := List.mem_of_getLast?_eq_some hu
      have hu_ids : u ∈ idsOf todos := hmem u (List.mem_append_left _ hu_mem)
      have hu_p : u ∈ p := hall u hu_ids
      obtain ⟨Lu, hLu⟩ := Option.isSome_iff_exists.mp
        (inv.pqLev u (List.mem_append_left _ hu_p))
      have hchain2 : ChainTo todos u c2 := by
        refine ⟨hc2ne, hu, hsplit.1, ?_⟩
        intro x hx
        exact hmem x (List.mem_append_left _ hx)
      have hih := ih u Lu hchain2 hLu
      obtain ⟨L2, Lu2, hL2, hLu2, hle⟩ := inv.levRelax u hu_p last hedge
      rw [hL] at hL2
      rw [hLu] at hLu2
      have he1 := Option.some.inj hL2
      have he2 := Option.some.inj hLu2
      rw [List.length_append, List.length_singleton]
      have hlen2 : c2.length = (a :: t).length := by rw [hc2]
      push_cast
      omega

theorem acyclicP_of_lt (todos : List TodoWithDependencies)
    (h : ∀ v ∈ idsOf todos, ∀ u ∈ inNbrs todos v, u < v) : AcyclicP todos := by
  have hstep : ∀ a b, Relation.TransGen (EdgeP todos) a b → a < b := by
    intro a b htg
    induction htg with
    | single hr => exact h _ (edgeP_mem hr).2 _ hr
    | tail h1 hr ih => exact lt_trans ih (h _ (edgeP_mem hr).2 _ hr)
  intro v htg
  exact lt_irrefl v (hstep v v htg)

/-- C2: for a duplicate-free acyclic input, every task's entry in the
nodeLevels mapping of calculateCriticalPath exists and equals the length
in edges of the longest dependency chain leading into the task (the
recorded level L is attained by a chain of L+1 nodes and no chain is
longer), all recorded levels are non-negative, and a task with no
dependencies has level 0. -/
theorem claim2_levels_longest_chain (todos : List TodoWithDependencies)
    (hnd : (idsOf todos).Nodup)
    (hdeps : ∀ t ∈ todos, (t.dependencies.map (fun d => d.id)).Nodup)
    (hacy : AcyclicP todos) :
    ∀ t ∈ todos, ∃ L : Int,
      mapGet t.id (calculateCriticalPath todos).nodeLevels = some L ∧
      0 ≤ L ∧
      (∃ c, ChainTo todos t.id c ∧ (c.length : Int) = L + 1) ∧
      (∀ c, ChainTo todos t.id c → (c.length : Int) ≤ L + 1) ∧
      (t.dependencies = [] → L = 0) := by
  intro t ht
  have hne : ¬ todos.length = 0 := by
    intro h
    rw [List.length_eq_zero] at h
    rw [h] at ht
    simp at ht
  rw [calculateCriticalPath_eq_trace todos hne]
  obtain ⟨inv, hqe⟩ := criticalPathTrace_inv todos hnd hdeps
  have hproc := acyclic_all_processed inv hqe hacy
  have htid_ids : t.id ∈ idsOf todos := List.mem_map_of_mem _ ht
  have hp := hproc t.id htid_ids
  obtain ⟨L, hL⟩ := Option.isSome_iff_exists.mp (inv.pqLev t.id (List.mem_append_left _ hp))
  refine ⟨L, hL, (inv.levPos _ _ hL).1, inv.levChain _ _ hL,
    fun c hc => chain_le_level inv hproc c t.id L hc hL, ?_⟩
  intro hdepnil
  have hin : inNbrs todos t.id = [] := by
    unfold inNbrs
    cases htk : taskOf todos t.id with
    | none => rfl
    | some t2 =>
      obtain ⟨ht2, hid2⟩ := taskOf_mem htk
      have ht2t : t2 = t := id_inj hnd ht2 ht hid2
      rw [ht2t]
      show ((t.dependencies.map (fun d => d.id)).filter
        (fun u => (idsOf todos).contains u)) = []
      rw [hdepnil]
      rfl
  have hroot : initIndeg todos t.id = 0 := by
    unfold initIndeg
    rw [hin]
    rfl
  have h0 := (inv.levRoot t.id htid_ids hroot).1
  rw [hL] at h0
  exact Option.some.inj h0

theorem claim2_witness :
    ∃ L : Int,
      mapGet 2 (calculateCriticalPath
        [⟨1, none, []⟩, ⟨2, none, [⟨1, some 10⟩]⟩]).nodeLevels = some L ∧
      0 ≤ L ∧
      (∃ c, ChainTo [⟨1, none, []⟩, ⟨2, none, [⟨1, some 10⟩]⟩] 2 c ∧
        (c.length : Int) = L + 1) ∧
      (∀ c, ChainTo [⟨1, none, []⟩, ⟨2, none, [⟨1, some 10⟩]⟩] 2 c →
        (c.length : Int) ≤ L + 1) ∧
      (([⟨1, some 10⟩] : List DepTodo) = [] → L = 0) :=
  claim2_levels_longest_chain [⟨1, none, []⟩, ⟨2, none, [⟨1, some 10⟩]⟩]
    (by decide) (by decide) (acyclicP_of_lt _ (by decide))
    ⟨2, none, [⟨1, some 10⟩]⟩ (by decide)

/-- C6 counterexample: in a three-task input whose tasks 2 and 3 form a
dependency cycle, the cyclic task 2 still receives a level through
relaxation from the processed task 1, appears in nodeLevels, and even
appears on the returned critical path, contradicting the claimed silent
exclusion of cyclic tasks from the results. -/
theorem claim6_counterexample :
    Relation.TransGen
      (EdgeP [⟨1, none, []⟩, ⟨2, none, [⟨3, none⟩, ⟨1, none⟩]⟩, ⟨3, none, [⟨2, none⟩]⟩]) 2 2 ∧
    (calculateCriticalPath
      [⟨1, none, []⟩, ⟨2, none, [⟨3, none⟩, ⟨1, none⟩]⟩, ⟨3, none, [⟨2, none⟩]⟩]).nodeLevels =
      [(1, 0), (2, 1)] ∧
    (calculateCriticalPath
      [⟨1, none, []⟩, ⟨2, none, [⟨3, none⟩, ⟨1, none⟩]⟩, ⟨3, none, [⟨2, none⟩]⟩]).criticalPath =
      [1, 2] :=
  ⟨Relation.TransGen.head
      (show EdgeP [⟨1, none, []⟩, ⟨2, none, [⟨3, none⟩, ⟨1, none⟩]⟩, ⟨3, none, [⟨2, none⟩]⟩] 2 3 by decide)
      (Relation.TransGen.single (show EdgeP [⟨1, none, []⟩, ⟨2, none, [⟨3, none⟩, ⟨1, none⟩]⟩, ⟨3, none, [⟨2, none⟩]⟩] 3 2 by decide)),
   by decide, by decide⟩

/-- C6 amended: in a duplicate-free input, a task lying on a directed
dependency cycle is never dequeued by the analyzer loop (it never enters
the processed sequence of the instrumented run); the exclusion-from-output
part of the original claim is refuted by the counterexample. -/
theorem claim6_amended (todos : List TodoWithDependencies)
    (hnd : (idsOf todos).Nodup)
    (hdeps : ∀ t ∈ todos, (t.dependencies.map (fun d => d.id)).Nodup)
    (v : Nat) (hcyc : Relation.TransGen (EdgeP todos) v v) :
    v ∉ (criticalPathTrace todos).2 := by
  obtain ⟨inv, _⟩ := criticalPathTrace_inv todos hnd hdeps
  intro hv
  exact processed_no_cycle (List.Nodup.of_append_left inv.nodupPQ) inv.procOrd v hv hcyc

theorem claim6_witness :
    2 ∉ (criticalPathTrace
      [⟨1, none, []⟩, ⟨2, none, [⟨3, none⟩, ⟨1, none⟩]⟩, ⟨3, none, [⟨2, none⟩]⟩]).2 :=
  claim6_amended _ (by decide) (by decide) 2
    (Relation.TransGen.head
      (show EdgeP [⟨1, none, []⟩, ⟨2, none, [⟨3, none⟩, ⟨1, none⟩]⟩, ⟨3, none, [⟨2, none⟩]⟩] 2 3 by decide)
      (Relation.TransGen.single (show EdgeP [⟨1, none, []⟩, ⟨2, none, [⟨3, none⟩, ⟨1, none⟩]⟩, ⟨3, none, [⟨2, none⟩]⟩] 3 2 by decide)))

theorem findMax_fold (m : List (Nat × Int)) :
    ∀ acc : Int × Option Nat,
      (∀ kv ∈ m,
        kv.2 ≤ (m.foldl (fun a kv => if kv.2 > a.1 then (kv.2, some kv.1) else a) acc).1) ∧
      acc.1 ≤ (m.foldl (fun a kv => if kv.2 > a.1 then (kv.2, some kv.1) else a) acc).1 ∧
      ((m.foldl (fun a kv => if kv.2 > a.1 then (kv.2, some kv.1) else a) acc) = acc ∨
        ∃ i, ∃ h : i < m.length,
          (m.foldl (fun a kv => if kv.2 > a.1 then (kv.2, some kv.1) else a) acc) =
            ((m.get ⟨i, h⟩).2, some (m.get ⟨i, h⟩).1) ∧
          acc.1 < (m.get ⟨i, h⟩).2 ∧
          ∀ j, (hj : j < m.length) → j < i → (m.get ⟨j, hj⟩).2 < (m.get ⟨i, h⟩).2) := by
  induction m with
  | nil => intro acc; exact ⟨by simp, le_refl _, Or.inl rfl⟩
  | cons kv rest ih =>
    intro acc
    rw [List.foldl_cons]
    by_cases hgt : kv.2 > acc.1
    · rw [if_pos hgt]
      obtain ⟨ihmax, ihacc, ihpos⟩ := ih (kv.2, some kv.1)
      refine ⟨?_, le_trans (le_of_lt hgt) ihacc, ?_⟩
      · intro kv2 hkv2
        rcases List.mem_cons.mp hkv2 with h2 | h2
        · rw [h2]
          exact ihacc
        · exact ihmax kv2 h2
      · rcases ihpos with heq | ⟨i, h, heq, hlt, hfirst⟩
        · right
          refine ⟨0, by simp, ?_, ?_, ?_⟩
          · rw [heq]
            rfl
          · exact hgt
          · intro j hj hj0
            omega
        · right
          refine ⟨i + 1, by simpa using h, ?_, ?_, ?_⟩
          · rw [heq]
            rfl
          · exact lt_trans hgt hlt
          · intro j hj hji
            cases j with
            | zero =>
              show kv.2 < (rest.get ⟨i, h⟩).2
              exact hlt
            | succ j2 =>
              exact hfirst j2 (by simpa using hj) (by omega)
    · rw [if_neg hgt]
      obtain ⟨ihmax, ihacc, ihpos⟩ := ih acc
      refine ⟨?_, ihacc, ?_⟩
      · intro kv2 hkv2
        rcases List.mem_cons.mp hkv2 with h2 | h2
        · rw [h2]
          exact le_trans (by omega) ihacc
        · exact ihmax kv2 h2
      · rcases ihpos with heq | ⟨i, h, heq, hlt, hfirst⟩
        · exact Or.inl heq
        · right
          refine ⟨i + 1, by simpa using h, ?_, ?_, ?_⟩
          · rw [heq]
            rfl
          · exact hlt
          · intro j hj hji
            cases j with
            | zero =>
              show kv.2 < (rest.get ⟨i, h⟩).2
              omega
            | succ j2 =>
              exact hfirst j2 (by simpa using hj) (by omega)

theorem findMax_spec (m : List (Nat × Int)) :
    (∀ kv ∈ m, kv.2 ≤ (findMax m).1) ∧ 0 ≤ (findMax m).1 ∧
    (findMax m = (0, none) ∨
      ∃ i, ∃ h : i < m.length,
        findMax m = ((m.get ⟨i, h⟩).2, some (m.get ⟨i, h⟩).1) ∧
        0 < (m.get ⟨i, h⟩).2 ∧
        ∀ j, (hj : j < m.length) → j < i → (m.get ⟨j, hj⟩).2 < (m.get ⟨i, h⟩).2) :=
  findMax_fold m (0, none)

theorem buildPath_none (parent : List (Nat × Option Nat)) (fuel : Nat) :
    buildPath parent fuel none = [] := by
  cases fuel <;> rfl

theorem buildPath_spec {todos : List TodoWithDependencies} {s : LoopState} {p : List Nat}
    (inv : KahnInv todos s p) :
    ∀ (fuel : Nat) (v : Nat) (L : Int), mapGet v s.levels = some L → L < (fuel : Int) →
      ChainTo todos v (buildPath s.parent fuel (some v)) ∧
      ((buildPath s.parent fuel (some v)).length : Int) = L + 1 ∧
      ∃ r, (buildPath s.parent fuel (some v)).head? = some r ∧
        mapGet r s.levels = some 0 := by
  intro fuel
  induction fuel with
  | zero =>
    intro v L hL hfuel
    have := (inv.levPos v L hL).1
    simp at hfuel
    omega
  | succ fuel ih =>
    intro v L hL hfuel
    have heq : buildPath s.parent (fuel + 1) (some v) =
        buildPath s.parent fuel ((mapGet v s.parent).getD none) ++ [v] := rfl
    obtain ⟨pv, hpv⟩ := Option.isSome_iff_exists.mp
      (inv.levToPar v (by rw [hL]; rfl))
    have hps := inv.parSpec v pv hpv
    cases pv with
    | none =>
      obtain ⟨hv_ids, hroot⟩ := hps.1 rfl
      have h0 := (inv.levRoot v hv_ids hroot).1
      rw [hL] at h0
      have hL0 : L = 0 := Option.some.inj h0
      have hinner : (mapGet v s.parent).getD none = none := by
        rw [hpv]
        rfl
      rw [heq, hinner, buildPath_none, List.nil_append]
      refine ⟨⟨List.cons_ne_nil v [], rfl, List.chain'_singleton v, ?_⟩, ?_, v, rfl, ?_⟩
      · intro x hx
        rw [List.mem_singleton.mp hx]
        exact hv_ids
      · rw [List.length_singleton, hL0]
        rfl
      · rw [hL, hL0]
    | some u =>
      obtain ⟨hedge, hup, L2, Lu, hL2, hLu, heq2⟩ := hps.2 u rfl
      rw [hL] at hL2
      have hLL2 : L = L2 := Option.some.inj hL2
      have hLu_lt : Lu < (fuel : Int) := by
        push_cast at hfuel
        omega
      obtain ⟨⟨hcne, hclast, hcchain, hcmem⟩, hclen, r, hrhead, hr0⟩ := ih u Lu hLu hLu_lt
      have hinner : (mapGet v s.parent).getD none = some u := by
        rw [hpv]
        rfl
      rw [heq, hinner]
      refine ⟨⟨by simp, ?_, ?_, ?_⟩, ?_, r, ?_, hr0⟩
      · rw [List.getLast?_concat]
      · apply List.Chain'.append hcchain (List.chain'_singleton v)
        intro x hx y hy
        have hxu : u = x := by
          rw [hclast] at hx
          simpa using hx
        have hyv : v = y := by simpa using hy
        rw [← hxu, ← hyv]
        exact hedge
      · intro x hx
        rcases List.mem_append.mp hx with h2 | h2
        · exact hcmem x h2
        · rw [List.mem_singleton.mp h2]
          exact (edgeP_mem hedge).2
      · rw [List.length_append, List.length_singleton]
        push_cast
        omega
      · rw [List.head?_append_of_ne_nil _ hcne]
        exact hrhead

/-- C3 amended: for a duplicate-free, acyclic, non-empty input, pathLength
equals the maximum recorded level plus one (the maximum is attained and
bounds every entry), and when that maximum is positive the critical path
has exactly pathLength entries, all input task ids, consecutive entries
connected by dependency edges, and a first entry of level 0; but when
every recorded level is 0 the critical path is empty (pathLength 1 with
zero entries), which refutes the unconditional entry-count clause of the
original claim. -/
theorem claim3_amended (todos : List TodoWithDependencies)
    (hnd : (idsOf todos).Nodup)
    (hdeps : ∀ t ∈ todos, (t.dependencies.map (fun d => d.id)).Nodup)
    (hacy : AcyclicP todos) (hne : todos ≠ []) :
    ∃ M : Int,
      (calculateCriticalPath todos).pathLength = M + 1 ∧
      0 ≤ M ∧
      (∀ kv ∈ (calculateCriticalPath todos).nodeLevels, kv.2 ≤ M) ∧
      (∃ kv ∈ (calculateCriticalPath todos).nodeLevels, kv.2 = M) ∧
      (0 < M →
        ((calculateCriticalPath todos).criticalPath.length : Int) = M + 1 ∧
        (∀ x ∈ (calculateCriticalPath todos).criticalPath, x ∈ idsOf todos) ∧
        List.Chain' (EdgeP todos) (calculateCriticalPath todos).criticalPath ∧
        ∃ r, (calculateCriticalPath todos).criticalPath.head? = some r ∧
          mapGet r (calculateCriticalPath todos).nodeLevels = some 0) ∧
      (M = 0 → (calculateCriticalPath todos).criticalPath = []) := by
  have hlen0 : ¬ todos.length = 0 := by
    intro h
    exact hne (List.length_eq_zero.mp h)
  rw [calculateCriticalPath_eq_trace todos hlen0]
  obtain ⟨inv, hqe⟩ := criticalPathTrace_inv todos hnd hdeps
  have hkeysnd := criticalPathTrace_levels_nodup todos hnd hdeps
  have hproc := acyclic_all_processed inv hqe hacy
  obtain ⟨hmax, hM0, hpos⟩ := findMax_spec (criticalPathTrace todos).1.levels
  refine ⟨(findMax (criticalPathTrace todos).1.levels).1, rfl, hM0, hmax, ?_, ?_, ?_⟩
  · -- the maximum is attained
    rcases hpos with heq | ⟨i, h, heqfm, hpos0, _⟩
    · obtain ⟨t0, ht0⟩ : ∃ t, t ∈ todos := by
        cases todos with
        | nil => exact absurd rfl hne
        | cons a t => exact ⟨a, List.mem_cons_self a t⟩
      have hv_ids : t0.id ∈ idsOf todos := List.mem_map_of_mem _ ht0
      have hv_p := hproc t0.id hv_ids
      obtain ⟨L, hL⟩ := Option.isSome_iff_exists.mp
        (inv.pqLev t0.id (List.mem_append_left _ hv_p))
      have hLpos := (inv.levPos _ _ hL).1
      have hentry := mapGet_mem hL
      have hle := hmax _ hentry
      have hMz : (findMax (criticalPathTrace todos).1.levels).1 = 0 := by rw [heq]
      refine ⟨(t0.id, L), hentry, ?_⟩
      rw [hMz] at hle ⊢
      omega
    · refine ⟨(criticalPathTrace todos).1.levels.get ⟨i, h⟩, List.get_mem _ _ _, ?_⟩
      rw [heqfm]
  · -- positive maximum: full critical path
    intro hMpos
    rcases hpos with heq | ⟨i, h, heqfm, hpos0, _⟩
    · rw [heq] at hMpos
      simp at hMpos
    · have hk : (findMax (criticalPathTrace todos).1.levels).2 =
          some ((criticalPathTrace todos).1.levels.get ⟨i, h⟩).1 := by rw [heqfm]
      have hMv : (findMax (criticalPathTrace todos).1.levels).1 =
          ((criticalPathTrace todos).1.levels.get ⟨i, h⟩).2 := by rw [heqfm]
      have hentry : (((criticalPathTrace todos).1.levels.get ⟨i, h⟩).1,
          ((criticalPathTrace todos).1.levels.get ⟨i, h⟩).2) ∈
          (criticalPathTrace todos).1.levels := by
        rw [Prod.mk.eta]
        exact List.get_mem _ _ _
      have hmk := mem_mapGet_of_nodup hkeysnd hentry
      have hbound : ((criticalPathTrace todos).1.levels.get ⟨i, h⟩).2 <
          ((todos.length + 1 : Nat) : Int) := by
        have hb1 := inv.levBound _ _ hmk
        have hb2 : (criticalPathTrace todos).2.length ≤ (idsOf todos).length :=
          nodup_sub_length (List.Nodup.of_append_left inv.nodupPQ)
            (fun v hv => inv.memPQ v (List.mem_append_left _ hv))
        have hb3 : (idsOf todos).length = todos.length := List.length_map _ _
        push_cast
        omega
      obtain ⟨⟨hcne, hclast, hcchain, hcmem⟩, hclen, r, hrhead, hr0⟩ :=
        buildPath_spec inv (todos.length + 1) _ _ hmk hbound
      rw [hk]
      rw [hMv]
      exact ⟨hclen, hcmem, hcchain, r, hrhead, hr0⟩
  · -- zero maximum: empty critical path
    intro hMz
    rcases hpos with heq | ⟨i, h, heqfm, hpos0, _⟩
    · have he : (findMax (criticalPathTrace todos).1.levels).2 = none := by rw [heq]
      rw [he, buildPath_none]
    · rw [heqfm] at hMz
      omega

/-- C3 counterexample: on the single dependency-free task the analyzer
returns pathLength 1 yet an empty criticalPath (the findMax scan starts
at level 0 with a null end task and uses a strict comparison, so no end
task is ever selected when all levels are 0), refuting the claim that the
critical path always has exactly pathLength entries with a level-0 first
entry. -/
theorem claim3_counterexample :
    (calculateCriticalPath [⟨1, none, []⟩]).pathLength = 1 ∧
    (calculateCriticalPath [⟨1, none, []⟩]).criticalPath = [] :=
  ⟨by decide, by decide⟩

theorem claim3_witness :
    ∃ M : Int,
      (calculateCriticalPath [⟨1, none, []⟩, ⟨2, none, [⟨1, none⟩]⟩]).pathLength = M + 1 ∧
      0 ≤ M ∧
      (∀ kv ∈ (calculateCriticalPath [⟨1, none, []⟩, ⟨2, none, [⟨1, none⟩]⟩]).nodeLevels,
        kv.2 ≤ M) ∧
      (∃ kv ∈ (calculateCriticalPath [⟨1, none, []⟩, ⟨2, none, [⟨1, none⟩]⟩]).nodeLevels,
        kv.2 = M) ∧
      (0 < M →
        (((calculateCriticalPath [⟨1, none, []⟩, ⟨2, none, [⟨1, none⟩]⟩]).criticalPath.length :
          Int) = M + 1) ∧
        (∀ x ∈ (calculateCriticalPath [⟨1, none, []⟩, ⟨2, none, [⟨1, none⟩]⟩]).criticalPath,
          x ∈ idsOf [⟨1, none, []⟩, ⟨2, none, [⟨1, none⟩]⟩]) ∧
        List.Chain' (EdgeP [⟨1, none, []⟩, ⟨2, none, [⟨1, none⟩]⟩])
          (calculateCriticalPath [⟨1, none, []⟩, ⟨2, none, [⟨1, none⟩]⟩]).criticalPath ∧
        ∃ r, (calculateCriticalPath [⟨1, none, []⟩, ⟨2, none, [⟨1, none⟩]⟩]).criticalPath.head? =
          some r ∧
          mapGet r (calculateCriticalPath [⟨1, none, []⟩, ⟨2, none, [⟨1, none⟩]⟩]).nodeLevels =
            some 0) ∧
      (M = 0 →
        (calculateCriticalPath [⟨1, none, []⟩, ⟨2, none, [⟨1, none⟩]⟩]).criticalPath = []) :=
  claim3_amended [⟨1, none, []⟩, ⟨2, none, [⟨1, none⟩]⟩]
    (by decide) (by decide) (acyclicP_of_lt _ (by decide)) (by decide)

/-- C5 amended: when the maximum recorded level is positive, the end of
the critical path is the first entry attaining the maximum in the
insertion order of the levels map (the order level assignments were
written), not in ascending task-id order as claimed; and a proposed level
for a dependent overwrites the recorded level and predecessor link if and
only if it strictly exceeds the recorded level, so on ties the first
writer keeps the predecessor slot. -/
theorem claim5_amended (todos : List TodoWithDependencies) (hne : todos ≠ []) :
    (0 < (findMax (calculateCriticalPath todos).nodeLevels).1 →
      ∃ i, ∃ h : i < (calculateCriticalPath todos).nodeLevels.length,
        (calculateCriticalPath todos).criticalPath.getLast? =
          some (((calculateCriticalPath todos).nodeLevels).get ⟨i, h⟩).1 ∧
        (((calculateCriticalPath todos).nodeLevels).get ⟨i, h⟩).2 =
          (findMax (calculateCriticalPath todos).nodeLevels).1 ∧
        ∀ j, (hj : j < (calculateCriticalPath todos).nodeLevels.length) → j < i →
          (((calculateCriticalPath todos).nodeLevels).get ⟨j, hj⟩).2 <
            (findMax (calculateCriticalPath todos).nodeLevels).1) ∧
    (∀ (current : Nat) (curLev : Int) (s : LoopState) (q : Nat) (L : Int),
      mapGet q s.levels = some L → 1 ≤ L →
      (curLev + 1 ≤ L →
        (relaxOne current curLev s q).levels = s.levels ∧
        (relaxOne current curLev s q).parent = s.parent) ∧
      (L < curLev + 1 →
        (relaxOne current curLev s q).levels = mapSet q (curLev + 1) s.levels ∧
        (relaxOne current curLev s q).parent = mapSet q (some current) s.parent)) := by
  have hlen0 : ¬ todos.length = 0 := by
    intro h
    exact hne (List.length_eq_zero.mp h)
  rw [calculateCriticalPath_eq_trace todos hlen0]
  constructor
  · intro hMpos
    rcases (findMax_spec (criticalPathTrace todos).1.levels).2.2 with
      heq | ⟨i, h, heqfm, hpos0, hfirst⟩
    · rw [heq] at hMpos
      simp at hMpos
    · refine ⟨i, h, ?_, ?_, ?_⟩
      · have hk : (findMax (criticalPathTrace todos).1.levels).2 =
            some (((criticalPathTrace todos).1.levels.get ⟨i, h⟩).1) := by rw [heqfm]
        rw [hk]
        rw [show buildPath (criticalPathTrace todos).1.parent (todos.length + 1)
            (some (((criticalPathTrace todos).1.levels.get ⟨i, h⟩).1)) =
          buildPath (criticalPathTrace todos).1.parent todos.length
            ((mapGet (((criticalPathTrace todos).1.levels.get ⟨i, h⟩).1)
              (criticalPathTrace todos).1.parent).getD none) ++
            [((criticalPathTrace todos).1.levels.get ⟨i, h⟩).1] from rfl]
        rw [List.getLast?_concat]
      · rw [heqfm]
      · intro j hj hji
        rw [heqfm]
        exact hfirst j hj hji
  · intro current curLev s q L hL h1
    have hE : jsLevel (mapGet q s.levels) = L := by
      rw [hL]
      exact jsLevel_some_pos h1
    constructor
    · intro hle
      simp only [relaxOne]
      rw [hE, if_neg (by omega : ¬ curLev + 1 > L)]
      constructor <;> (split <;> rfl)
    · intro hgt
      simp only [relaxOne]
      rw [hE, if_pos (by omega : curLev + 1 > L)]
      constructor <;> (split <;> rfl)

/-- C5 counterexample: in the input [1; 3; 2 dep 3; 4 dep 1] the tasks 2
and 4 both attain the maximum level 1 and task 2 has the smaller id, yet
the critical path ends at 4: the findMax scan follows the insertion order
of the levels map (1, 3, 4, 2), not ascending task-id order. -/
theorem claim5_counterexample :
    (calculateCriticalPath
      [⟨1, none, []⟩, ⟨3, none, []⟩, ⟨2, none, [⟨3, none⟩]⟩, ⟨4, none, [⟨1, none⟩]⟩]).nodeLevels =
      [(1, 0), (3, 0), (4, 1), (2, 1)] ∧
    (calculateCriticalPath
      [⟨1, none, []⟩, ⟨3, none, []⟩, ⟨2, none, [⟨3, none⟩]⟩, ⟨4, none, [⟨1, none⟩]⟩]).criticalPath =
      [1, 4] ∧
    mapGet 2 (calculateCriticalPath
      [⟨1, none, []⟩, ⟨3, none, []⟩, ⟨2, none, [⟨3, none⟩]⟩,
        ⟨4, none, [⟨1, none⟩]⟩]).nodeLevels = some 1 :=
  ⟨by decide, by decide, by decide⟩

theorem claim5_witness :
    (0 < (findMax (calculateCriticalPath
        [⟨1, none, []⟩, ⟨3, none, []⟩, ⟨2, none, [⟨3, none⟩]⟩,
          ⟨4, none, [⟨1, none⟩]⟩]).nodeLevels).1 →
      ∃ i, ∃ h : i < (calculateCriticalPath
          [⟨1, none, []⟩, ⟨3, none, []⟩, ⟨2, none, [⟨3, none⟩]⟩,
            ⟨4, none, [⟨1, none⟩]⟩]).nodeLevels.length,
        (calculateCriticalPath
          [⟨1, none, []⟩, ⟨3, none, []⟩, ⟨2, none, [⟨3, none⟩]⟩,
            ⟨4, none, [⟨1, none⟩]⟩]).criticalPath.getLast? =
          some (((calculateCriticalPath
            [⟨1, none, []⟩, ⟨3, none, []⟩, ⟨2, none, [⟨3, none⟩]⟩,
              ⟨4, none, [⟨1, none⟩]⟩]).nodeLevels).get ⟨i, h⟩).1 ∧
        (((calculateCriticalPath
          [⟨1, none, []⟩, ⟨3, none, []⟩, ⟨2, none, [⟨3, none⟩]⟩,
            ⟨4, none, [⟨1, none⟩]⟩]).nodeLevels).get ⟨i, h⟩).2 =
          (findMax (calculateCriticalPath
            [⟨1, none, []⟩, ⟨3, none, []⟩, ⟨2, none, [⟨3, none⟩]⟩,
              ⟨4, none, [⟨1, none⟩]⟩]).nodeLevels).1 ∧
        ∀ j, (hj : j < (calculateCriticalPath
            [⟨1, none, []⟩, ⟨3, none, []⟩, ⟨2, none, [⟨3, none⟩]⟩,
              ⟨4, none, [⟨1, none⟩]⟩]).nodeLevels.length) → j < i →
          (((calculateCriticalPath
            [⟨1, none, []⟩, ⟨3, none, []⟩, ⟨2, none, [⟨3, none⟩]⟩,
              ⟨4, none, [⟨1, none⟩]⟩]).nodeLevels).get ⟨j, hj⟩).2 <
            (findMax (calculateCriticalPath
              [⟨1, none, []⟩, ⟨3, none, []⟩, ⟨2, none, [⟨3, none⟩]⟩,
                ⟨4, none, [⟨1, none⟩]⟩]).nodeLevels).1) ∧
    (∀ (current : Nat) (curLev : Int) (s : LoopState) (q : Nat) (L : Int),
      mapGet q s.levels = some L → 1 ≤ L →
      (curLev + 1 ≤ L →
        (relaxOne current curLev s q).levels = s.levels ∧
        (relaxOne current curLev s q).parent = s.parent) ∧
      (L < curLev + 1 →
        (relaxOne current curLev s q).levels = mapSet q (curLev + 1) s.levels ∧
        (relaxOne current curLev s q).parent = mapSet q (some current) s.parent)) :=
  claim5_amended
    [⟨1, none, []⟩, ⟨3, none, []⟩, ⟨2, none, [⟨3, none⟩]⟩, ⟨4, none, [⟨1, none⟩]⟩]
    (by decide)
